import Mathlib

/-!
Verification development for the Arrow <-> ORC adapter
(`cpp/src/arrow/adapters/orc/adapter_util.cc` and
`cpp/src/arrow/adapters/orc/adapter.cc`).

The development shallowly embeds the two conversion pipelines:

* the decode path `AppendBatch` (ORC column-vector batch -> Arrow builder),
* the encode path `WriteBatch` (Arrow array / chunked array -> ORC batch),
* the bidirectional schema translators `GetArrowType` / `GetORCType`,
* the pre-pass `NormalizeArray`, and
* the chunk-cursor orchestration (`WriteBatch` on chunked arrays and
  `ORCFileWriter::Impl::Write`).

Machine integers are modelled as `Int` with explicit wrapping where a C++
narrowing conversion occurs.  ORC column-vector buffers (which are mutable
fixed-capacity arrays indexed by an offset cursor) are modelled as total
functions `Nat -> _` updated pointwise; Arrow arrays (immutable, built by
appending) are modelled as lists.  Slicing an Arrow array is represented by
passing an explicit (start, length) window over the same list, which is
extensionally what `Array::Slice` provides to the writers.
-/

/-- Pointwise update of a buffer modelled as a total function. -/
def updB {γ : Type} (f : Nat → γ) (i : Nat) (x : γ) : Nat → γ :=
  fun j => if j = i then x else f j

/-- C++ `static_cast` from a 64-bit signed integer to a narrower signed
integer of `w` bits (two's-complement wrap-around). -/
def wrapSigned (w : Nat) (x : Int) : Int :=
  (x + 2 ^ (w - 1)) % (2 ^ w) - 2 ^ (w - 1)

/-- Arrow time units (`arrow::TimeUnit::type`). -/
inductive ATimeUnit where
  | second
  | milli
  | micro
  | nano
  deriving DecidableEq, Repr

/-- liborc `TypeKind` tags, as referenced by the adapter. -/
inductive OrcKind where
  | BOOLEAN | BYTE | SHORT | INT | LONG | FLOAT | DOUBLE
  | STRING | BINARY | TIMESTAMP | LIST | MAP | STRUCT
  | UNION | DECIMAL | DATE | VARCHAR | CHAR
  deriving DecidableEq, Repr

/-- Arrow `Type::type` ids (the tags the encode dispatcher switches on,
together with the other tags of the Arrow logical-type enum, which an
unrecognized column would carry). -/
inductive ArrowTypeId where
  | NA | BOOL
  | UINT8 | INT8 | UINT16 | INT16 | UINT32 | INT32 | UINT64 | INT64
  | HALF_FLOAT | FLOAT | DOUBLE
  | STRING | LARGE_STRING | BINARY | LARGE_BINARY | FIXED_SIZE_BINARY
  | DATE32 | DATE64 | TIMESTAMP | TIME32 | TIME64
  | INTERVAL_MONTHS | INTERVAL_DAY_TIME | DURATION
  | DECIMAL128 | DECIMAL256
  | LIST | LARGE_LIST | FIXED_SIZE_LIST | STRUCT | MAP
  | SPARSE_UNION | DENSE_UNION | DICTIONARY | EXTENSION
  deriving DecidableEq, Repr

mutual

/-- Arrow logical types (`arrow::DataType`), as a tagged tree.  Struct and
union types carry named fields; a sparse union additionally carries its
type codes (Arrow `sparse_union(fields, type_codes)`). -/
inductive AType where
  | null | boolean
  | uint8 | int8 | uint16 | int16 | uint32 | int32 | uint64 | int64
  | halfFloat | float32 | float64
  | string | largeString | binary | largeBinary
  | fixedSizeBinary (byteWidth : Nat)
  | date32 | date64
  | timestamp (unit : ATimeUnit)
  | time32 | time64 | intervalMonths | intervalDayTime | duration
  | decimal128 (precision scale : Nat)
  | decimal256 (precision scale : Nat)
  | list (elem : AType)
  | largeList (elem : AType)
  | fixedSizeList (elem : AType) (size : Nat)
  | structT (fields : AFieldList)
  | mapT (key item : AType)
  | sparseUnion (fields : AFieldList) (typeCodes : List Int)
  | denseUnion (fields : AFieldList) (typeCodes : List Int)
  | dictionary (value : AType)
  | extension

/-- A list of named Arrow fields. -/
inductive AFieldList where
  | nil
  | cons (name : String) (ty : AType) (tl : AFieldList)

end

/-- The `Type::type` tag of an Arrow logical type (`type.id()`). -/
def ATypeId : AType → ArrowTypeId
  | .null => .NA
  | .boolean => .BOOL
  | .uint8 => .UINT8
  | .int8 => .INT8
  | .uint16 => .UINT16
  | .int16 => .INT16
  | .uint32 => .UINT32
  | .int32 => .INT32
  | .uint64 => .UINT64
  | .int64 => .INT64
  | .halfFloat => .HALF_FLOAT
  | .float32 => .FLOAT
  | .float64 => .DOUBLE
  | .string => .STRING
  | .largeString => .LARGE_STRING
  | .binary => .BINARY
  | .largeBinary => .LARGE_BINARY
  | .fixedSizeBinary _ => .FIXED_SIZE_BINARY
  | .date32 => .DATE32
  | .date64 => .DATE64
  | .timestamp _ => .TIMESTAMP
  | .time32 => .TIME32
  | .time64 => .TIME64
  | .intervalMonths => .INTERVAL_MONTHS
  | .intervalDayTime => .INTERVAL_DAY_TIME
  | .duration => .DURATION
  | .decimal128 _ _ => .DECIMAL128
  | .decimal256 _ _ => .DECIMAL256
  | .list _ => .LIST
  | .largeList _ => .LARGE_LIST
  | .fixedSizeList _ _ => .FIXED_SIZE_LIST
  | .structT _ => .STRUCT
  | .mapT _ _ => .MAP
  | .sparseUnion _ _ => .SPARSE_UNION
  | .denseUnion _ _ => .DENSE_UNION
  | .dictionary _ => .DICTIONARY
  | .extension => .EXTENSION

mutual

/-- liborc type descriptors (`liborc::Type`), as a tagged tree.  A struct
carries named subtypes (`addStructField`); a union carries unnamed subtypes
(`addUnionChild`); `char`/`varchar` carry a maximum length; `decimal`
carries precision and scale. -/
inductive OType where
  | boolean | byte | short | int | long | float | double
  | string
  | varchar (maxLength : Nat)
  | binary
  | char (maxLength : Nat)
  | date | timestamp
  | decimal (precision scale : Nat)
  | list (elem : OType)
  | mapT (key item : OType)
  | structT (fields : OFieldList)
  | union (alts : OTypeList)

/-- Named subtypes of an ORC struct type. -/
inductive OFieldList where
  | nil
  | cons (name : String) (ty : OType) (tl : OFieldList)

/-- Unnamed subtypes of an ORC union type. -/
inductive OTypeList where
  | nil
  | cons (hd : OType) (tl : OTypeList)

end

/-- The `TypeKind` tag of an ORC type descriptor (`type->getKind()`). -/
def OTypeKind : OType → OrcKind
  | .boolean => .BOOLEAN
  | .byte => .BYTE
  | .short => .SHORT
  | .int => .INT
  | .long => .LONG
  | .float => .FLOAT
  | .double => .DOUBLE
  | .string => .STRING
  | .varchar _ => .VARCHAR
  | .binary => .BINARY
  | .char _ => .CHAR
  | .date => .DATE
  | .timestamp => .TIMESTAMP
  | .decimal _ _ => .DECIMAL
  | .list _ => .LIST
  | .mapT _ _ => .MAP
  | .structT _ => .STRUCT
  | .union _ => .UNION

/-- The result/failure values the adapter's dispatch functions return
(`arrow::Status`).  Each error constructor records the datum the C++
message interpolates, so "names the type" is part of the model. -/
inductive ConvError where
  | notImplementedKind (kind : OrcKind)
  | invalidArrowType (id : ArrowTypeId)
  | invalidOrcType (kind : OrcKind)
  | typeMismatch
  deriving DecidableEq, Repr

-- The number of milliseconds, microseconds and nanoseconds in a second
-- (constants at the top of adapter_util.cc).
def kOneSecondMillis : Int := 1000
def kOneMicroNanos : Int := 1000
def kOneSecondMicros : Int := 1000000
def kOneMilliNanos : Int := 1000000
def kOneSecondNanos : Int := 1000000000

/-- Encode-path physical-width selection for decimals
(`WriteBatch`, `case arrow::Type::type::DECIMAL128`): the wide
(`Decimal128VectorBatch`) writer is chosen iff `precision > 18`. -/
def writeDecimalUsesWide (precision : Nat) : Bool :=
  precision > 18

/-- Decode-path physical-width selection for decimals
(`AppendDecimalBatch`): the wide (`Decimal128VectorBatch`) source is chosen
iff `type->getPrecision() == 0 || type->getPrecision() > 18`. -/
def appendDecimalUsesWide (precision : Nat) : Bool :=
  precision == 0 || precision > 18

/-- The two stores of `TimestampAppender::VisitValue`, as a function of the
conversion factors and the element value.  In the C++,
`std::floor(data / conversion_factor_from_second)` applies `std::floor` to
the result of `int64_t` division, which already truncates toward zero, so
the seconds field is the truncated quotient `Int.tdiv`. -/
def tsEncodePair (factorFromSecond factorToNano : Int) (v : Int) : Int × Int :=
  (v.tdiv factorFromSecond,
   (v - factorFromSecond * v.tdiv factorFromSecond) * factorToNano)

/-- Modelled from the spec: the pair the specification says the timestamp
writer stores, reading `floor` as the mathematical floor (`Int.fdiv`), to be
compared with `tsEncodePair` (the code). -/
def tsEncodePairSpec (factorFromSecond factorToNano : Int) (v : Int) : Int × Int :=
  (v.fdiv factorFromSecond,
   (v - factorFromSecond * v.fdiv factorFromSecond) * factorToNano)

/-- The conversion-factor pair selected by the encode dispatcher for each
timestamp unit (`WriteBatch`, `case arrow::Type::type::TIMESTAMP`). -/
def timestampFactors : ATimeUnit → Int × Int
  | .second => (1, kOneSecondNanos)
  | .milli => (kOneSecondMillis, kOneMilliNanos)
  | .micro => (kOneSecondMicros, kOneMicroNanos)
  | .nano => (kOneSecondNanos, 1)

/-- The decode-path recombination of an element's physical
(seconds, nanoseconds) pair (`AppendTimestampBatch`'s `transform_timestamp`). -/
def tsDecodeVal (seconds nanoseconds : Int) : Int :=
  seconds * kOneSecondNanos + nanoseconds

mutual

/-- `GetORCType(const DataType&)` (adapter_util.cc): Arrow logical type to
ORC type descriptor.  The C++ recursion uses `.ValueOrDie()` on child
translations (aborting on failure); the model propagates the error value
instead, which is likewise "not a success". -/
def GetORCType : AType → Except ConvError OType
  | .boolean => .ok .boolean
  | .int8 => .ok .byte
  | .int16 => .ok .short
  | .int32 => .ok .int
  | .int64 => .ok .long
  | .float32 => .ok .float
  | .float64 => .ok .double
  | .string => .ok .string
  | .largeString => .ok .string
  | .binary => .ok .binary
  | .largeBinary => .ok .binary
  | .fixedSizeBinary _ => .ok .binary
  | .date32 => .ok .date
  | .date64 => .ok .timestamp
  | .timestamp _ => .ok .timestamp
  | .decimal128 p s => .ok (.decimal p s)
  | .list e => do
      let sub ← GetORCType e
      .ok (.list sub)
  | .fixedSizeList e _ => do
      let sub ← GetORCType e
      .ok (.list sub)
  | .largeList e => do
      let sub ← GetORCType e
      .ok (.list sub)
  | .structT fs => do
      let subs ← GetORCTypeFields fs
      .ok (.structT subs)
  | .mapT k v => do
      let ko ← GetORCType k
      let vo ← GetORCType v
      .ok (.mapT ko vo)
  | .denseUnion fs _ => do
      let subs ← GetORCTypeUnion fs
      .ok (.union subs)
  | .sparseUnion fs _ => do
      let subs ← GetORCTypeUnion fs
      .ok (.union subs)
  | .dictionary v => GetORCType v
  | t => .error (.invalidArrowType (ATypeId t))

/-- The struct loop of `GetORCType`: translate each named field with
`addStructField`. -/
def GetORCTypeFields : AFieldList → Except ConvError OFieldList
  | .nil => .ok .nil
  | .cons name ty tl => do
      let sub ← GetORCType ty
      let rest ← GetORCTypeFields tl
      .ok (.cons name sub rest)

/-- The union loop of `GetORCType`: translate each child with
`addUnionChild` (names are dropped). -/
def GetORCTypeUnion : AFieldList → Except ConvError OTypeList
  | .nil => .ok .nil
  | .cons _ ty tl => do
      let sub ← GetORCType ty
      let rest ← GetORCTypeUnion tl
      .ok (.cons sub rest)

end

mutual

/-- `GetArrowType(const liborc::Type*, ...)` (adapter_util.cc): ORC type
descriptor to Arrow logical type.  The nullptr case (`*out = null()`) has no
counterpart because the modelled type tree has no null nodes, and the
arity checks on list/map are vacuous because the constructors are n-ary by
shape. -/
def GetArrowType : OType → Except ConvError AType
  | .boolean => .ok .boolean
  | .byte => .ok .int8
  | .short => .ok .int16
  | .int => .ok .int32
  | .long => .ok .int64
  | .float => .ok .float32
  | .double => .ok .float64
  | .varchar _ => .ok .string
  | .string => .ok .string
  | .binary => .ok .binary
  | .char n => .ok (.fixedSizeBinary n)
  | .timestamp => .ok (.timestamp .nano)
  | .date => .ok .date32
  | .decimal p s =>
      -- In HIVE 0.11/0.12 precision is set as 0, but means max precision
      if p = 0 then .ok (.decimal128 38 6) else .ok (.decimal128 p s)
  | .list e => do
      let elem ← GetArrowType e
      .ok (.list elem)
  | .mapT k v => do
      let kt ← GetArrowType k
      let vt ← GetArrowType v
      .ok (.mapT kt vt)
  | .structT fs => do
      let fields ← GetArrowTypeFields fs
      .ok (.structT fields)
  | .union alts => do
      let (fields, codes) ← GetArrowTypeUnion alts 0
      .ok (.sparseUnion fields codes)

/-- The struct loop of `GetArrowType`: translate each subtype, keeping the
ORC field name. -/
def GetArrowTypeFields : OFieldList → Except ConvError AFieldList
  | .nil => .ok .nil
  | .cons name ty tl => do
      let elem ← GetArrowType ty
      let rest ← GetArrowTypeFields tl
      .ok (.cons name elem rest)

/-- The union loop of `GetArrowType`: the child at index `child` becomes a
field named `"_union_" ++ toString child` with type code
`static_cast<int8_t>(child)`. -/
def GetArrowTypeUnion : OTypeList → Nat → Except ConvError (AFieldList × List Int)
  | .nil, _ => .ok (.nil, [])
  | .cons hd tl, child => do
      let elem ← GetArrowType hd
      let (fields, codes) ← GetArrowTypeUnion tl (child + 1)
      .ok (.cons ("_union_" ++ toString child) elem fields,
           wrapSigned 8 (Int.ofNat child) :: codes)

end

/-- The handler selected by the decode dispatcher `AppendBatch` for each
ORC type kind (the `switch (kind)` at adapter_util.cc:301).  Each
constructor names the per-kind appender the dispatcher calls;
`numericBatchCast`/`numericBatch`/`binaryBatch` record the builder type
instantiating the template. -/
inductive AppendRoute where
  | structBatch | listBatch | mapBatch
  | numericBatch (builder : ArrowTypeId)
  | numericBatchCast (builder : ArrowTypeId)
  | boolBatch
  | binaryBatch (builder : ArrowTypeId)
  | fixedBinaryBatch
  | timestampBatch
  | decimalBatch
  | fail (e : ConvError)
  deriving DecidableEq, Repr

/-- The decode dispatch table (`AppendBatch`'s switch on
`type->getKind()`). -/
def AppendBatchRoute : OrcKind → AppendRoute
  | .STRUCT => .structBatch
  | .LIST => .listBatch
  | .MAP => .mapBatch
  | .LONG => .numericBatch .INT64
  | .INT => .numericBatchCast .INT32
  | .SHORT => .numericBatchCast .INT16
  | .BYTE => .numericBatchCast .INT8
  | .DOUBLE => .numericBatch .DOUBLE
  | .FLOAT => .numericBatchCast .FLOAT
  | .BOOLEAN => .boolBatch
  | .VARCHAR => .binaryBatch .STRING
  | .STRING => .binaryBatch .STRING
  | .BINARY => .binaryBatch .BINARY
  | .CHAR => .fixedBinaryBatch
  | .DATE => .numericBatchCast .DATE32
  | .TIMESTAMP => .timestampBatch
  | .DECIMAL => .decimalBatch
  | k => .fail (.notImplementedKind k)

/-- The ORC column-vector-batch class instantiating `WriteGenericBatch`. -/
inductive OrcBatchKind where
  | longV | doubleV | stringV | decimal64V | decimal128V
  deriving DecidableEq, Repr

/-- The handler selected by the encode dispatcher `WriteBatch` for an Arrow
array, with the template/argument data the dispatcher passes
(`timestampW` carries the two conversion factors). -/
inductive WriteRoute where
  | generic (dataTy : ArrowTypeId) (batch : OrcBatchKind)
  | fixedSizeBinaryW
  | timestampW (factorFromSecond factorToNano : Int)
  | structW | listW | mapW
  | fail (e : ConvError)
  deriving DecidableEq, Repr

/-- The encode dispatch table (`WriteBatch`'s switch on
`array.type_id()`, including the nested switches on timestamp unit and on
decimal precision). -/
def WriteBatchRoute : AType → WriteRoute
  | .boolean => .generic .BOOL .longV
  | .int8 => .generic .INT8 .longV
  | .int16 => .generic .INT16 .longV
  | .int32 => .generic .INT32 .longV
  | .int64 => .generic .INT64 .longV
  | .float32 => .generic .FLOAT .doubleV
  | .float64 => .generic .DOUBLE .doubleV
  | .binary => .generic .BINARY .stringV
  | .largeBinary => .generic .LARGE_BINARY .stringV
  | .string => .generic .STRING .stringV
  | .largeString => .generic .LARGE_STRING .stringV
  | .fixedSizeBinary _ => .fixedSizeBinaryW
  | .date32 => .generic .DATE32 .longV
  | .date64 => .timestampW kOneSecondMillis kOneMilliNanos
  | .timestamp .second => .timestampW 1 kOneSecondNanos
  | .timestamp .milli => .timestampW kOneSecondMillis kOneMilliNanos
  | .timestamp .micro => .timestampW kOneSecondMicros kOneMicroNanos
  | .timestamp .nano => .timestampW kOneSecondNanos 1
  | .decimal128 p _ =>
      if writeDecimalUsesWide p then .generic .DECIMAL128 .decimal128V
      else .generic .DECIMAL128 .decimal64V
  | .structT _ => .structW
  | .list _ => .listW
  | .largeList _ => .listW
  | .fixedSizeList _ _ => .listW
  | .mapT _ _ => .mapW
  | t => .fail (.invalidArrowType (ATypeId t))

mutual

/-- Arrow arrays (`arrow::Array`), as self-describing immutable values.
Leaf arrays fuse the validity bitmap and the value buffer into a list of
optional values (a bitmap bit `false` makes the stored value logically
absent).  Struct/list/map arrays keep the validity bitmap, the offsets
buffer and the child arrays separate, as Arrow does; list/map offsets are
absolute indices into the child array, as for an unsliced Arrow array.
Byte strings are lists of byte values.  Field names are not kept on arrays
(they live on the schema side and never influence the conversion of
values).  Floating-point, large and dictionary arrays are outside the
value model (the dispatch-level model above covers their routing). -/
inductive AArr where
  | boolA (vals : List (Option Bool))
  | int8A (vals : List (Option Int))
  | int16A (vals : List (Option Int))
  | int32A (vals : List (Option Int))
  | int64A (vals : List (Option Int))
  | date32A (vals : List (Option Int))
  | timestampA (unit : ATimeUnit) (vals : List (Option Int))
  | decimalA (precision scale : Nat) (vals : List (Option Int))
  | stringA (vals : List (Option (List Nat)))
  | binaryA (vals : List (Option (List Nat)))
  | fixedBinaryA (byteWidth : Nat) (vals : List (Option (List Nat)))
  | structA (validity : List Bool) (fields : AArrList)
  | listA (validity : List Bool) (offsets : List Int) (values : AArr)
  | mapA (validity : List Bool) (offsets : List Int) (keys items : AArr)

/-- The child arrays of a struct array. -/
inductive AArrList where
  | nil
  | cons (hd : AArr) (tl : AArrList)

end

/-- Logical length of an array (`array.length()`). -/
def alen : AArr → Nat
  | .boolA vals => vals.length
  | .int8A vals => vals.length
  | .int16A vals => vals.length
  | .int32A vals => vals.length
  | .int64A vals => vals.length
  | .date32A vals => vals.length
  | .timestampA _ vals => vals.length
  | .decimalA _ _ vals => vals.length
  | .stringA vals => vals.length
  | .binaryA vals => vals.length
  | .fixedBinaryA _ vals => vals.length
  | .structA validity _ => validity.length
  | .listA validity _ _ => validity.length
  | .mapA validity _ _ _ => validity.length

/-- The top-level validity bitmap of an array (true = valid). -/
def topValidity : AArr → List Bool
  | .boolA vals => vals.map Option.isSome
  | .int8A vals => vals.map Option.isSome
  | .int16A vals => vals.map Option.isSome
  | .int32A vals => vals.map Option.isSome
  | .int64A vals => vals.map Option.isSome
  | .date32A vals => vals.map Option.isSome
  | .timestampA _ vals => vals.map Option.isSome
  | .decimalA _ _ vals => vals.map Option.isSome
  | .stringA vals => vals.map Option.isSome
  | .binaryA vals => vals.map Option.isSome
  | .fixedBinaryA _ vals => vals.map Option.isSome
  | .structA validity _ => validity
  | .listA validity _ _ => validity
  | .mapA validity _ _ _ => validity

/-- `array.IsNull(i)` (out-of-range indices read as valid). -/
def isNullAt (a : AArr) (i : Nat) : Bool :=
  !((topValidity a).getD i true)

/-- The contiguous window `[start, start + len)` of a list (the view an
`Array::Slice` presents of a buffer). -/
def svals {γ : Type} (start len : Nat) (xs : List γ) : List γ :=
  (xs.drop start).take len

/-- `array.null_count() != 0` restricted to the window the writer was given
(the writers receive slices). -/
def anyNullRange (a : AArr) (start len : Nat) : Bool :=
  (svals start len (topValidity a)).any (fun b => !b)

/-- Mask the values of one leaf list with a parent bitmap. -/
def maskVals {γ : Type} (p : List Bool) (vals : List (Option γ)) : List (Option γ) :=
  List.zipWith (fun b ov => if b then ov else none) p vals

/-- Pointwise conjunction of two validity bitmaps (`arrow::internal::BitmapAnd`). -/
def andBits (p q : List Bool) : List Bool :=
  List.zipWith (fun a b => a && b) p q

/-- The struct step of `NormalizeArray`: replace a child's validity bitmap
by its conjunction with the parent struct's bitmap (when the child has no
bitmap of its own, the parent bitmap is installed, which coincides with
the conjunction against an all-valid bitmap). -/
def maskValidity (p : List Bool) : AArr → AArr
  | .boolA vals => .boolA (maskVals p vals)
  | .int8A vals => .int8A (maskVals p vals)
  | .int16A vals => .int16A (maskVals p vals)
  | .int32A vals => .int32A (maskVals p vals)
  | .int64A vals => .int64A (maskVals p vals)
  | .date32A vals => .date32A (maskVals p vals)
  | .timestampA u vals => .timestampA u (maskVals p vals)
  | .decimalA pr sc vals => .decimalA pr sc (maskVals p vals)
  | .stringA vals => .stringA (maskVals p vals)
  | .binaryA vals => .binaryA (maskVals p vals)
  | .fixedBinaryA w vals => .fixedBinaryA w (maskVals p vals)
  | .structA validity fields => .structA (andBits p validity) fields
  | .listA validity offsets values => .listA (andBits p validity) offsets values
  | .mapA validity offsets keys items => .mapA (andBits p validity) offsets keys items

-- Constructor-node count of an array, the termination measure for the
-- recursions that rebuild children (it ignores the contents of leaf lists,
-- so re-masking a validity bitmap preserves it).
mutual

def nodes : AArr → Nat
  | .structA _ fields => 1 + nodesL fields
  | .listA _ _ values => 1 + nodes values
  | .mapA _ _ keys items => 1 + nodes keys + nodes items
  | _ => 1

def nodesL : AArrList → Nat
  | .nil => 0
  | .cons hd tl => 1 + nodes hd + nodesL tl

end

mutual

/-- `NormalizeArray` (adapter_util.cc): make sure children of struct arrays
have appropriate nulls.  Leaf kinds are returned unchanged; a struct with
no nulls is returned unchanged; a struct with nulls rebuilds every child
with its validity bitmap conjoined with the parent's and recurses; list and
map arrays keep their own validity and normalize their children. -/
def NormalizeArray : AArr → AArr
  | .boolA vals => .boolA vals
  | .int8A vals => .int8A vals
  | .int16A vals => .int16A vals
  | .int32A vals => .int32A vals
  | .int64A vals => .int64A vals
  | .date32A vals => .date32A vals
  | .timestampA u vals => .timestampA u vals
  | .decimalA pr sc vals => .decimalA pr sc vals
  | .stringA vals => .stringA vals
  | .binaryA vals => .binaryA vals
  | .fixedBinaryA w vals => .fixedBinaryA w vals
  | .structA validity fields =>
      if validity.all (fun b => b) then .structA validity fields
      else .structA validity (normalizeFields validity fields)
  | .listA validity offsets values =>
      .listA validity offsets (NormalizeArray values)
  | .mapA validity offsets keys items =>
      .mapA validity offsets (NormalizeArray keys) (NormalizeArray items)
termination_by a => nodes a
decreasing_by
  all_goals
    have hmask : ∀ (p : List Bool) (x : AArr), nodes (maskValidity p x) = nodes x :=
      fun p x => by cases x <;> rfl
    simp [nodes, nodesL, hmask]
    try omega

/-- The child loop of `NormalizeArray`'s struct case. -/
def normalizeFields (validity : List Bool) : AArrList → AArrList
  | .nil => .nil
  | .cons f tl =>
      .cons (NormalizeArray (maskValidity validity f)) (normalizeFields validity tl)
termination_by fs => nodesL fs
decreasing_by
  all_goals
    have hmask : ∀ (p : List Bool) (x : AArr), nodes (maskValidity p x) = nodes x :=
      fun p x => by cases x <;> rfl
    simp [nodes, nodesL, hmask]
    try omega

end

mutual

/-- ORC column-vector batches (`liborc::ColumnVectorBatch` and its
subclasses), with each fixed-capacity buffer modelled as a total function
from slot index.  `StringVectorBatch`'s `data`/`length` pair of buffers is
fused into one byte-string buffer.  `DoubleVectorBatch` is outside the
value model (no floating-point arrays are modelled). -/
inductive OBatch where
  | longB (hasNulls : Bool) (notNull : Nat → Bool) (data : Nat → Int)
  | stringB (hasNulls : Bool) (notNull : Nat → Bool) (data : Nat → List Nat)
  | timestampB (hasNulls : Bool) (notNull : Nat → Bool)
      (seconds : Nat → Int) (nanoseconds : Nat → Int)
  | decimal64B (hasNulls : Bool) (notNull : Nat → Bool) (values : Nat → Int)
  | decimal128B (hasNulls : Bool) (notNull : Nat → Bool) (values : Nat → Int)
  | structB (hasNulls : Bool) (notNull : Nat → Bool) (fields : OBatchList)
  | listB (hasNulls : Bool) (notNull : Nat → Bool) (offsets : Nat → Int)
      (elements : OBatch)
  | mapB (hasNulls : Bool) (notNull : Nat → Bool) (offsets : Nat → Int)
      (keys : OBatch) (elements : OBatch)

/-- The field batches of a struct batch. -/
inductive OBatchList where
  | nil
  | cons (hd : OBatch) (tl : OBatchList)

end

/-- The visitor loop shared by the leaf `Appender`s: walk the array's
optional values left to right, setting `notNull` to false on a null and
storing the (converted) value and `notNull := true` otherwise, advancing
the running ORC offset. -/
def writeOptVals {α β : Type} (store : α → β) :
    List (Option α) → Nat → (Nat → Bool) → (Nat → β) → ((Nat → Bool) × (Nat → β))
  | [], _, notNull, data => (notNull, data)
  | none :: rest, o, notNull, data =>
      writeOptVals store rest (o + 1) (updB notNull o false) data
  | some v :: rest, o, notNull, data =>
      writeOptVals store rest (o + 1) (updB notNull o true) (updB data o (store v))

/-- The visitor loop of `TimestampAppender`: on a value, store the pair
`tsEncodePair` into the `data` (seconds) and `nanoseconds` buffers. -/
def writeTsVals (factorFromSecond factorToNano : Int) :
    List (Option Int) → Nat → (Nat → Bool) → (Nat → Int) → (Nat → Int) →
    ((Nat → Bool) × (Nat → Int) × (Nat → Int))
  | [], _, notNull, sec, nano => (notNull, sec, nano)
  | none :: rest, o, notNull, sec, nano =>
      writeTsVals factorFromSecond factorToNano rest (o + 1) (updB notNull o false) sec nano
  | some v :: rest, o, notNull, sec, nano =>
      writeTsVals factorFromSecond factorToNano rest (o + 1) (updB notNull o true)
        (updB sec o (tsEncodePair factorFromSecond factorToNano v).1)
        (updB nano o (tsEncodePair factorFromSecond factorToNano v).2)

/-- The loop of `WriteStructBatch` that fills the struct batch's own
`notNull` from the array's validity. -/
def writeValidity : List Bool → Nat → (Nat → Bool) → (Nat → Bool)
  | [], _, notNull => notNull
  | b :: rest, o, notNull => writeValidity rest (o + 1) (updB notNull o b)

/-- The read loop shared by the leaf appenders of the decode path: read
`len` slots starting at `offset`, yielding `none` where the batch marks a
null (`hasNulls` gating the `notNull` array, as in the C++) and the loaded,
possibly narrowed, value otherwise. -/
def readOptVals {α β : Type} (load : β → α) (hasNulls : Bool) (notNull : Nat → Bool)
    (data : Nat → β) (offset len : Nat) : List (Option α) :=
  (List.range len).map fun k =>
    if hasNulls && !notNull (offset + k) then none
    else some (load (data (offset + k)))

/-- The read loop of `AppendTimestampBatch`: recombine the per-slot
(seconds, nanoseconds) pair through `tsDecodeVal`. -/
def readTsVals (hasNulls : Bool) (notNull : Nat → Bool) (seconds nanoseconds : Nat → Int)
    (offset len : Nat) : List (Option Int) :=
  (List.range len).map fun k =>
    if hasNulls && !notNull (offset + k) then none
    else some (tsDecodeVal (seconds (offset + k)) (nanoseconds (offset + k)))

mutual

/-- The single-array `WriteBatch(array, orc_offset, column_vector_batch)`
(adapter_util.cc): dispatch on the array's type id and run the per-kind
writer, mutating the destination batch at offsets `[orcOffset,
orcOffset + len)`.  The slice of the source array the C++ passes is
represented by the `(arrowOffset, len)` window.  A batch whose physical
class does not match the dispatched writer's `checked_cast` is undefined
behaviour in C++ and a `typeMismatch` error here. -/
def WriteBatchArr (a : AArr) (arrowOffset len orcOffset : Nat) (b : OBatch) :
    Except ConvError OBatch :=
  match a, b with
  | .boolA vals, .longB h nn d =>
      let sl := svals arrowOffset len vals
      let r := writeOptVals (fun v => if v then (1 : Int) else 0) sl orcOffset nn d
      .ok (.longB (h || sl.any (fun x => x.isNone)) r.1 r.2)
  | .int8A vals, .longB h nn d =>
      let sl := svals arrowOffset len vals
      let r := writeOptVals (fun v : Int => v) sl orcOffset nn d
      .ok (.longB (h || sl.any (fun x => x.isNone)) r.1 r.2)
  | .int16A vals, .longB h nn d =>
      let sl := svals arrowOffset len vals
      let r := writeOptVals (fun v : Int => v) sl orcOffset nn d
      .ok (.longB (h || sl.any (fun x => x.isNone)) r.1 r.2)
  | .int32A vals, .longB h nn d =>
      let sl := svals arrowOffset len vals
      let r := writeOptVals (fun v : Int => v) sl orcOffset nn d
      .ok (.longB (h || sl.any (fun x => x.isNone)) r.1 r.2)
  | .int64A vals, .longB h nn d =>
      let sl := svals arrowOffset len vals
      let r := writeOptVals (fun v : Int => v) sl orcOffset nn d
      .ok (.longB (h || sl.any (fun x => x.isNone)) r.1 r.2)
  | .date32A vals, .longB h nn d =>
      let sl := svals arrowOffset len vals
      let r := writeOptVals (fun v : Int => v) sl orcOffset nn d
      .ok (.longB (h || sl.any (fun x => x.isNone)) r.1 r.2)
  | .stringA vals, .stringB h nn d =>
      let sl := svals arrowOffset len vals
      let r := writeOptVals (fun v : List Nat => v) sl orcOffset nn d
      .ok (.stringB (h || sl.any (fun x => x.isNone)) r.1 r.2)
  | .binaryA vals, .stringB h nn d =>
      let sl := svals arrowOffset len vals
      let r := writeOptVals (fun v : List Nat => v) sl orcOffset nn d
      .ok (.stringB (h || sl.any (fun x => x.isNone)) r.1 r.2)
  | .fixedBinaryA _ vals, .stringB h nn d =>
      let sl := svals arrowOffset len vals
      let r := writeOptVals (fun v : List Nat => v) sl orcOffset nn d
      .ok (.stringB (h || sl.any (fun x => x.isNone)) r.1 r.2)
  | .timestampA u vals, .timestampB h nn sec nano =>
      let sl := svals arrowOffset len vals
      let f := (timestampFactors u).1
      let g := (timestampFactors u).2
      let r := writeTsVals f g sl orcOffset nn sec nano
      .ok (.timestampB (h || sl.any (fun x => x.isNone)) r.1 r.2.1 r.2.2)
  | .decimalA p _ vals, .decimal128B h nn d =>
      if writeDecimalUsesWide p then
        let sl := svals arrowOffset len vals
        let r := writeOptVals (fun v : Int => v) sl orcOffset nn d
        .ok (.decimal128B (h || sl.any (fun x => x.isNone)) r.1 r.2)
      else .error .typeMismatch
  | .decimalA p _ vals, .decimal64B h nn d =>
      if writeDecimalUsesWide p then .error .typeMismatch
      else
        let sl := svals arrowOffset len vals
        let r := writeOptVals (wrapSigned 64) sl orcOffset nn d
        .ok (.decimal64B (h || sl.any (fun x => x.isNone)) r.1 r.2)
  | .structA v fs, .structB h nn fieldsB => do
      let sl := svals arrowOffset len v
      let nn' := writeValidity sl orcOffset nn
      let fieldsB' ← writeStructFields fs fieldsB arrowOffset len orcOffset
      .ok (.structB (h || sl.any (fun b => !b)) nn' fieldsB')
  | .listA v offs values, .listB h nn offB elemB => do
      let offB0 := if orcOffset = 0 then updB offB 0 0 else offB
      let sl := svals arrowOffset len v
      let r ← writeListSlots values offs sl arrowOffset orcOffset nn offB0 elemB
      .ok (.listB (h || sl.any (fun b => !b)) r.1 r.2.1 r.2.2)
  | .mapA v offs keys items, .mapB h nn offB keyB elemB => do
      let offB0 := if orcOffset = 0 then updB offB 0 0 else offB
      let sl := svals arrowOffset len v
      let r ← writeMapSlots keys items offs sl arrowOffset orcOffset nn offB0 keyB elemB
      .ok (.mapB (h || sl.any (fun b => !b)) r.1 r.2.1 r.2.2.1 r.2.2.2)
  | _, _ => .error .typeMismatch
termination_by (nodes a, 0, 0)
decreasing_by
  all_goals (simp_wf; simp [Prod.lex_def, nodes, nodesL]; try omega)

/-- The per-field loop of `WriteStructBatch`: write field `i` of the
(sliced) struct array into `batch->fields[i]` at the same destination
offset. -/
def writeStructFields (fs : AArrList) (fieldsB : OBatchList)
    (arrowOffset len orcOffset : Nat) : Except ConvError OBatchList :=
  match fs, fieldsB with
  | .nil, .nil => .ok .nil
  | .cons f ftl, .cons fb fbtl => do
      let fb' ← WriteBatchArr f arrowOffset len orcOffset fb
      let rest ← writeStructFields ftl fbtl arrowOffset len orcOffset
      .ok (.cons fb' rest)
  | _, _ => .error .typeMismatch
termination_by (nodesL fs, 1, 0)
decreasing_by
  all_goals (simp_wf; simp [Prod.lex_def, nodes, nodesL]; try omega)

/-- The slot loop of `WriteListBatch`: for a valid slot, extend the ORC
offsets by the Arrow offset difference and recurse into the element batch
over the mapped sub-range; for a null slot, clear `notNull` and repeat the
previous offset.  `i` is the running Arrow offset (absolute), `j` the
running ORC offset. -/
def writeListSlots (values : AArr) (offs : List Int) (sl : List Bool)
    (i j : Nat) (nn : Nat → Bool) (offB : Nat → Int) (elemB : OBatch) :
    Except ConvError ((Nat → Bool) × (Nat → Int) × OBatch) :=
  match sl with
  | [] => .ok (nn, offB, elemB)
  | valid :: rest =>
      if valid then do
        let diff := offs.getD (i + 1) 0 - offs.getD i 0
        let offB' := updB offB (j + 1) (offB j + diff)
        let subArrowOffset := (offs.getD i 0).toNat
        let subOrcOffset := (offB j).toNat
        let subLen := (offB' (j + 1) - offB j).toNat
        let elemB' ← WriteBatchArr values subArrowOffset subLen subOrcOffset elemB
        writeListSlots values offs rest (i + 1) (j + 1) (updB nn j true) offB' elemB'
      else
        writeListSlots values offs rest (i + 1) (j + 1) (updB nn j false)
          (updB offB (j + 1) (offB j)) elemB
termination_by (nodes values, 1, sl.length)
decreasing_by
  all_goals (simp_wf; simp [Prod.lex_def, nodes, nodesL]; try omega)

/-- The slot loop of `WriteMapBatch`: like the list loop, but resizing and
recursing into both the key and the element batch over the same mapped
sub-range. -/
def writeMapSlots (keys items : AArr) (offs : List Int) (sl : List Bool)
    (i j : Nat) (nn : Nat → Bool) (offB : Nat → Int) (keyB elemB : OBatch) :
    Except ConvError ((Nat → Bool) × (Nat → Int) × OBatch × OBatch) :=
  match sl with
  | [] => .ok (nn, offB, keyB, elemB)
  | valid :: rest =>
      if valid then do
        let diff := offs.getD (i + 1) 0 - offs.getD i 0
        let offB' := updB offB (j + 1) (offB j + diff)
        let subArrowOffset := (offs.getD i 0).toNat
        let subOrcOffset := (offB j).toNat
        let subLen := (offB' (j + 1) - offB j).toNat
        let keyB' ← WriteBatchArr keys subArrowOffset subLen subOrcOffset keyB
        let elemB' ← WriteBatchArr items subArrowOffset subLen subOrcOffset elemB
        writeMapSlots keys items offs rest (i + 1) (j + 1) (updB nn j true) offB' keyB' elemB'
      else
        writeMapSlots keys items offs rest (i + 1) (j + 1) (updB nn j false)
          (updB offB (j + 1) (offB j)) keyB elemB
termination_by (nodes keys + nodes items, 1, sl.length)
decreasing_by
  all_goals
    have hpos : ∀ x : AArr, 1 ≤ nodes x := fun x => by
      cases x <;> (simp [nodes]; try omega)
    have hk := hpos keys
    have hi := hpos items
    simp_wf
    simp [Prod.lex_def, nodes, nodesL]
    try omega

end

-- Constructor-node count of an ORC type descriptor, the termination
-- measure for the decode recursion.
mutual

def otNodes : OType → Nat
  | .list e => 1 + otNodes e
  | .mapT k v => 1 + otNodes k + otNodes v
  | .structT fs => 1 + otNodesF fs
  | .union alts => 1 + otNodesU alts
  | _ => 1

def otNodesF : OFieldList → Nat
  | .nil => 0
  | .cons _ ty tl => 1 + otNodes ty + otNodesF tl

def otNodesU : OTypeList → Nat
  | .nil => 0
  | .cons hd tl => 1 + otNodes hd + otNodesU tl

end

mutual

/-- `AppendBatch(type, batch, offset, length, builder)` (adapter_util.cc):
walk the ORC type descriptor and the matching physical batch, appending
`len` logical values starting at `offset` to the builder.  Builders are
represented by the array value accumulated so far, so "append" extends the
underlying lists.  An unsupported kind (UNION) falls to the dispatcher's
default arm, a not-implemented error naming the kind; a batch or builder
whose class does not match the kind's `checked_cast` is undefined
behaviour in C++ and a `typeMismatch` error here.  Floating-point kinds
are outside the value model. -/
def AppendBatch (t : OType) (b : OBatch) (offset len : Nat) (builder : AArr) :
    Except ConvError AArr :=
  match t, b, builder with
  | .structT fs, .structB h nn fieldsB, .structA bv bfs => do
      let newValidity := (List.range len).map (fun k => !(h && !nn (offset + k)))
      let bfs' ← appendStructFields fs fieldsB offset len bfs
      .ok (.structA (bv ++ newValidity) bfs')
  | .list et, .listB h nn offB elemB, .listA bv boffs bvals =>
      appendListSlots et elemB h nn offB offset len bv boffs bvals
  | .mapT kt vt, .mapB h nn offB keyB elemB, .mapA bv boffs bkeys bitems =>
      appendMapSlots kt vt keyB elemB h nn offB offset len bv boffs bkeys bitems
  | .long, .longB h nn d, .int64A bv =>
      .ok (.int64A (bv ++ readOptVals (fun v : Int => v) h nn d offset len))
  | .int, .longB h nn d, .int32A bv =>
      .ok (.int32A (bv ++ readOptVals (wrapSigned 32) h nn d offset len))
  | .short, .longB h nn d, .int16A bv =>
      .ok (.int16A (bv ++ readOptVals (wrapSigned 16) h nn d offset len))
  | .byte, .longB h nn d, .int8A bv =>
      .ok (.int8A (bv ++ readOptVals (wrapSigned 8) h nn d offset len))
  | .boolean, .longB h nn d, .boolA bv =>
      .ok (.boolA (bv ++ readOptVals (fun v : Int => !(v == 0)) h nn d offset len))
  | .varchar _, .stringB h nn d, .stringA bv =>
      .ok (.stringA (bv ++ readOptVals (fun v : List Nat => v) h nn d offset len))
  | .string, .stringB h nn d, .stringA bv =>
      .ok (.stringA (bv ++ readOptVals (fun v : List Nat => v) h nn d offset len))
  | .binary, .stringB h nn d, .binaryA bv =>
      .ok (.binaryA (bv ++ readOptVals (fun v : List Nat => v) h nn d offset len))
  | .char _, .stringB h nn d, .fixedBinaryA w bv =>
      .ok (.fixedBinaryA w (bv ++ readOptVals (fun v : List Nat => v) h nn d offset len))
  | .date, .longB h nn d, .date32A bv =>
      .ok (.date32A (bv ++ readOptVals (wrapSigned 32) h nn d offset len))
  | .timestamp, .timestampB h nn sec nano, .timestampA u bv =>
      .ok (.timestampA u (bv ++ readTsVals h nn sec nano offset len))
  | .decimal p _, .decimal128B h nn vs, .decimalA bp bs bv =>
      if appendDecimalUsesWide p then
        .ok (.decimalA bp bs (bv ++ readOptVals (fun v : Int => v) h nn vs offset len))
      else .error .typeMismatch
  | .decimal p _, .decimal64B h nn vs, .decimalA bp bs bv =>
      if appendDecimalUsesWide p then .error .typeMismatch
      else
        .ok (.decimalA bp bs (bv ++ readOptVals (fun v : Int => v) h nn vs offset len))
  | .union _, _, _ => .error (.notImplementedKind (OTypeKind t))
  | _, _, _ => .error .typeMismatch
termination_by (otNodes t, 0, 0)
decreasing_by
  all_goals (simp_wf; simp [Prod.lex_def, otNodes, otNodesF]; try omega)

/-- The per-field loop of `AppendStructBatch`: recurse into
`type->getSubtype(i)` / `batch->fields[i]` / `builder->field_builder(i)`
over the same range. -/
def appendStructFields (fs : OFieldList) (fieldsB : OBatchList) (offset len : Nat)
    (bfs : AArrList) : Except ConvError AArrList :=
  match fs, fieldsB, bfs with
  | .nil, .nil, .nil => .ok .nil
  | .cons _ ty ftl, .cons fb fbtl, .cons bf bftl => do
      let bf' ← AppendBatch ty fb offset len bf
      let rest ← appendStructFields ftl fbtl offset len bftl
      .ok (.cons bf' rest)
  | _, _, _ => .error .typeMismatch
termination_by (otNodesF fs, 1, 0)
decreasing_by
  all_goals (simp_wf; simp [Prod.lex_def, otNodes, otNodesF]; try omega)

/-- The position loop of `AppendListBatch` over `[offset, offset + len)`:
a valid position opens one container slot (`builder->Append()`) and
recurses into the element batch over
`[batch->offsets[i], batch->offsets[i+1])`; a null position appends one
null slot and performs no child append.  A slot append records the child
builder's current length as the new offsets entry, as the Arrow list
builder does. -/
def appendListSlots (et : OType) (elemB : OBatch) (h : Bool) (nn : Nat → Bool)
    (offB : Nat → Int) (j len : Nat) (bv : List Bool) (boffs : List Int)
    (bvals : AArr) : Except ConvError AArr :=
  match len with
  | 0 => .ok (.listA bv boffs bvals)
  | len' + 1 =>
      if !h || nn j then do
        let start := offB j
        let stop := offB (j + 1)
        let bvals' ← AppendBatch et elemB start.toNat (stop - start).toNat bvals
        appendListSlots et elemB h nn offB (j + 1) len' (bv ++ [true])
          (boffs ++ [Int.ofNat (alen bvals')]) bvals'
      else
        appendListSlots et elemB h nn offB (j + 1) len' (bv ++ [false])
          (boffs ++ [Int.ofNat (alen bvals)]) bvals
termination_by (otNodes et, 1, len)
decreasing_by
  all_goals (simp_wf; simp [Prod.lex_def, otNodes, otNodesF]; try omega)

/-- The position loop of `AppendMapBatch`: like the list loop, but a valid
position recurses into both the key and the element batch over the same
`[batch->offsets[i], batch->offsets[i+1])` range. -/
def appendMapSlots (kt vt : OType) (keyB elemB : OBatch) (h : Bool) (nn : Nat → Bool)
    (offB : Nat → Int) (j len : Nat) (bv : List Bool) (boffs : List Int)
    (bkeys bitems : AArr) : Except ConvError AArr :=
  match len with
  | 0 => .ok (.mapA bv boffs bkeys bitems)
  | len' + 1 =>
      if !h || nn j then do
        let start := offB j
        let stop := offB (j + 1)
        let bkeys' ← AppendBatch kt keyB start.toNat (stop - start).toNat bkeys
        let bitems' ← AppendBatch vt elemB start.toNat (stop - start).toNat bitems
        appendMapSlots kt vt keyB elemB h nn offB (j + 1) len' (bv ++ [true])
          (boffs ++ [Int.ofNat (alen bkeys')]) bkeys' bitems'
      else
        appendMapSlots kt vt keyB elemB h nn offB (j + 1) len' (bv ++ [false])
          (boffs ++ [Int.ofNat (alen bkeys)]) bkeys bitems
termination_by (otNodes kt + otNodes vt, 1, len)
decreasing_by
  all_goals
    have hpos : ∀ x : OType, 1 ≤ otNodes x := fun x => by
      cases x <;> (simp [otNodes]; try omega)
    have hk := hpos kt
    have hv := hpos vt
    simp_wf
    simp [Prod.lex_def, otNodes, otNodesF]
    try omega

end

mutual

/-- The Arrow logical type an array value carries (`array.type()`).  Field
names are not kept on arrays, so struct fields are anonymous. -/
def atypeOf : AArr → AType
  | .boolA _ => .boolean
  | .int8A _ => .int8
  | .int16A _ => .int16
  | .int32A _ => .int32
  | .int64A _ => .int64
  | .date32A _ => .date32
  | .timestampA u _ => .timestamp u
  | .decimalA p s _ => .decimal128 p s
  | .stringA _ => .string
  | .binaryA _ => .binary
  | .fixedBinaryA w _ => .fixedSizeBinary w
  | .structA _ fs => .structT (atypeOfFields fs)
  | .listA _ _ v => .list (atypeOf v)
  | .mapA _ _ k v => .mapT (atypeOf k) (atypeOf v)

def atypeOfFields : AArrList → AFieldList
  | .nil => .nil
  | .cons f tl => .cons "" (atypeOf f) (atypeOfFields tl)

end

/-- The values the chunked `WriteBatch` reports back: the filled batch,
`numElements` (the destination-offset advance, stored into
`column_vector_batch->numElements`), and the updated
(intra-chunk index, chunk index) cursor pair. -/
structure ChunkedResult where
  batch : OBatch
  numElements : Nat
  arrowIndexOffset : Nat
  arrowChunkOffset : Nat

/-- The while loop of the chunked
`WriteBatch(column_vector_batch, arrow_index_offset, arrow_chunk_offset,
length, chunked_array)` (adapter_util.cc:1119-1135): normalize the current
chunk, write `min(length - orc_offset, chunk length - arrow_index_offset)`
values, and advance the cursor pair, resetting the intra-chunk index when
a chunk is exhausted. -/
def writeChunkedLoop (chunks : List AArr) (length : Nat) (idx chunkOff orcOff : Nat)
    (b : OBatch) : Except ConvError ChunkedResult :=
  if hc : chunkOff < chunks.length ∧ orcOff < length then do
    let array := NormalizeArray (chunks.getD chunkOff (.int64A []))
    let n := min (length - orcOff) (alen array - idx)
    let b' ← if 0 < n then WriteBatchArr array idx n orcOff b else pure b
    let orcOff' := orcOff + n
    let idx' := idx + n
    if orcOff' < length then
      writeChunkedLoop chunks length 0 (chunkOff + 1) orcOff' b'
    else
      .ok ⟨b', orcOff', idx', chunkOff⟩
  else
    .ok ⟨b, orcOff, idx, chunkOff⟩
termination_by chunks.length - chunkOff
decreasing_by simp_wf; omega

/-- The chunked `WriteBatch` entry point: run the loop from destination
offset 0 and store the final `orc_offset` as `numElements`. -/
def WriteBatchChunked (chunks : List AArr) (length : Nat) (idx chunkOff : Nat)
    (b : OBatch) : Except ConvError ChunkedResult :=
  writeChunkedLoop chunks length idx chunkOff 0 b

/-- Total number of rows of a chunked column (`ChunkedArray::length`,
`table->num_rows()` for its column). -/
def chunksLen (chunks : List AArr) : Nat :=
  (chunks.map alen).sum

/-- The `while (numRows > 0)` loop of `ORCFileWriter::Impl::Write`
(adapter.cc:536-546) restricted to a single column: fill one
fixed-capacity batch per iteration through the chunked `WriteBatch`,
record its `numElements`, decrement `numRows` by the batch capacity, and
reuse the (cleared) batch.  The capacity is `c1 + 1`, keeping it positive
as in the C++ (`batch_size = 1024`). -/
def writeTableLoop (chunks : List AArr) (c1 : Nat) (numRows idx chunkOff : Nat)
    (b : OBatch) : Except ConvError (List Nat) :=
  if 0 < numRows then do
    let r ← WriteBatchChunked chunks (c1 + 1) idx chunkOff b
    let rest ← writeTableLoop chunks c1 (numRows - (c1 + 1)) r.arrowIndexOffset
      r.arrowChunkOffset r.batch
    .ok (r.numElements :: rest)
  else
    .ok []
termination_by numRows
decreasing_by simp_wf; omega

/-- `ORCFileWriter::Impl::Write` for a single column: start from row 0 and
cursor (0, 0) and return the `numElements` of each flushed batch. -/
def ORCFileWriterWrite (chunks : List AArr) (c1 : Nat) (b : OBatch) :
    Except ConvError (List Nat) :=
  writeTableLoop chunks c1 (chunksLen chunks) 0 0 b

mutual

/-- Modelled from the spec: `liborc::Type::createRowBatch` (the external
physical-format library) produces, per type kind, a fresh fixed-capacity
batch of the matching physical class with `hasNulls = false`; liborc picks
the narrow decimal batch exactly when the decode path does (precision
nonzero and at most 18).  Buffer contents start as zeros / all-valid;
nothing in the pipelines reads a slot that was not first written.
Floating-point and union kinds are outside the value model. -/
def CreateBatchOf : OType → Except ConvError OBatch
  | .boolean => .ok (.longB false (fun _ => true) (fun _ => 0))
  | .byte => .ok (.longB false (fun _ => true) (fun _ => 0))
  | .short => .ok (.longB false (fun _ => true) (fun _ => 0))
  | .int => .ok (.longB false (fun _ => true) (fun _ => 0))
  | .long => .ok (.longB false (fun _ => true) (fun _ => 0))
  | .date => .ok (.longB false (fun _ => true) (fun _ => 0))
  | .string => .ok (.stringB false (fun _ => true) (fun _ => []))
  | .varchar _ => .ok (.stringB false (fun _ => true) (fun _ => []))
  | .binary => .ok (.stringB false (fun _ => true) (fun _ => []))
  | .char _ => .ok (.stringB false (fun _ => true) (fun _ => []))
  | .timestamp => .ok (.timestampB false (fun _ => true) (fun _ => 0) (fun _ => 0))
  | .decimal p _ =>
      if appendDecimalUsesWide p then
        .ok (.decimal128B false (fun _ => true) (fun _ => 0))
      else
        .ok (.decimal64B false (fun _ => true) (fun _ => 0))
  | .structT fs => do
      let fieldsB ← CreateBatchFields fs
      .ok (.structB false (fun _ => true) fieldsB)
  | .list e => do
      let elemB ← CreateBatchOf e
      .ok (.listB false (fun _ => true) (fun _ => 0) elemB)
  | .mapT k v => do
      let keyB ← CreateBatchOf k
      let elemB ← CreateBatchOf v
      .ok (.mapB false (fun _ => true) (fun _ => 0) keyB elemB)
  | .float => .error .typeMismatch
  | .double => .error .typeMismatch
  | .union _ => .error .typeMismatch

def CreateBatchFields : OFieldList → Except ConvError OBatchList
  | .nil => .ok .nil
  | .cons _ ty tl => do
      let fb ← CreateBatchOf ty
      let rest ← CreateBatchFields tl
      .ok (.cons fb rest)

end

mutual

/-- Modelled from the spec: `arrow::MakeBuilder` (the external array
library) produces an empty builder for each supported logical type; in
this model a builder is the empty array of that type (list and map
builders start with the single offsets entry 0).  Types the decode path
never produces for a supported column are outside the model. -/
def MakeBuilderOf : AType → Except ConvError AArr
  | .boolean => .ok (.boolA [])
  | .int8 => .ok (.int8A [])
  | .int16 => .ok (.int16A [])
  | .int32 => .ok (.int32A [])
  | .int64 => .ok (.int64A [])
  | .date32 => .ok (.date32A [])
  | .timestamp u => .ok (.timestampA u [])
  | .decimal128 p s => .ok (.decimalA p s [])
  | .string => .ok (.stringA [])
  | .binary => .ok (.binaryA [])
  | .fixedSizeBinary w => .ok (.fixedBinaryA w [])
  | .structT fs => do
      let builders ← MakeBuilderFields fs
      .ok (.structA [] builders)
  | .list e => do
      let eb ← MakeBuilderOf e
      .ok (.listA [] [0] eb)
  | .mapT k v => do
      let kb ← MakeBuilderOf k
      let vb ← MakeBuilderOf v
      .ok (.mapA [] [0] kb vb)
  | _ => .error .typeMismatch

def MakeBuilderFields : AFieldList → Except ConvError AArrList
  | .nil => .ok .nil
  | .cons _ ty tl => do
      let fb ← MakeBuilderOf ty
      let rest ← MakeBuilderFields tl
      .ok (.cons fb rest)

end

mutual

/-- Well-formedness of an array value: leaf values fit their declared
machine width (Arrow invariants: `int8` values are 8-bit, decimal values
fit their precision with `1 ≤ precision ≤ 38`, fixed-size binary values
have the declared width), struct fields have the parent's length, and
list/map offsets form a chain of `length + 1` non-decreasing non-negative
entries. -/
def wfB : AArr → Bool
  | .boolA _ => true
  | .int8A vals =>
      vals.all (fun ov => ov.all (fun v => decide (-(2 ^ 7) ≤ v) && decide (v < 2 ^ 7)))
  | .int16A vals =>
      vals.all (fun ov => ov.all (fun v => decide (-(2 ^ 15) ≤ v) && decide (v < 2 ^ 15)))
  | .int32A vals =>
      vals.all (fun ov => ov.all (fun v => decide (-(2 ^ 31) ≤ v) && decide (v < 2 ^ 31)))
  | .int64A vals =>
      vals.all (fun ov => ov.all (fun v => decide (-(2 ^ 63) ≤ v) && decide (v < 2 ^ 63)))
  | .date32A vals =>
      vals.all (fun ov => ov.all (fun v => decide (-(2 ^ 31) ≤ v) && decide (v < 2 ^ 31)))
  | .timestampA _ vals =>
      vals.all (fun ov => ov.all (fun v => decide (-(2 ^ 63) ≤ v) && decide (v < 2 ^ 63)))
  | .decimalA p _ vals =>
      decide (1 ≤ p) && decide (p ≤ 38) &&
        vals.all (fun ov => ov.all (fun v => decide (-(10 ^ p) < v) && decide (v < 10 ^ p)))
  | .stringA _ => true
  | .binaryA _ => true
  | .fixedBinaryA w vals => vals.all (fun ov => ov.all (fun v => v.length == w))
  | .structA v fs => wfFieldsB v.length fs
  | .listA v offs values =>
      (offs.length == v.length + 1) && decide (List.Chain' (fun x y => x ≤ y) offs) &&
        decide (0 ≤ offs.getD 0 0) && wfB values
  | .mapA v offs keys items =>
      (offs.length == v.length + 1) && decide (List.Chain' (fun x y => x ≤ y) offs) &&
        decide (0 ≤ offs.getD 0 0) && wfB keys && wfB items

def wfFieldsB (n : Nat) : AArrList → Bool
  | .nil => true
  | .cons f tl => (alen f == n) && wfB f && wfFieldsB n tl

end

mutual

/-- The round-trip-stable class of array types: types whose schema
translation is injective (`GetArrowType (GetORCType t) = t`) and whose
leaf encode/decode value conversions are mutually inverse, closed under
struct nesting.  Timestamps are stable only at nanosecond unit (the decode
path always materializes nanoseconds); fixed-size binary decodes as plain
binary; list/map arrays are excluded (their offsets are rebuilt in
canonical form by the decode path). -/
def stableB : AArr → Bool
  | .boolA _ => true
  | .int8A _ => true
  | .int16A _ => true
  | .int32A _ => true
  | .int64A _ => true
  | .date32A _ => true
  | .timestampA u _ => u == ATimeUnit.nano
  | .decimalA _ _ _ => true
  | .stringA _ => true
  | .binaryA _ => true
  | .fixedBinaryA _ _ => false
  | .structA _ fs => stableFieldsB fs
  | .listA _ _ _ => false
  | .mapA _ _ _ _ => false

def stableFieldsB : AArrList → Bool
  | .nil => true
  | .cons f tl => stableB f && stableFieldsB tl

end

mutual

/-- Shape agreement between an array and a destination batch: the batch's
physical class is the one the array's per-kind writer `checked_cast`s to
(for decimals, the width selected by the writer's precision threshold). -/
def bmatchB : AArr → OBatch → Bool
  | .boolA _, .longB _ _ _ => true
  | .int8A _, .longB _ _ _ => true
  | .int16A _, .longB _ _ _ => true
  | .int32A _, .longB _ _ _ => true
  | .int64A _, .longB _ _ _ => true
  | .date32A _, .longB _ _ _ => true
  | .timestampA _ _, .timestampB _ _ _ _ => true
  | .decimalA p _ _, .decimal64B _ _ _ => !writeDecimalUsesWide p
  | .decimalA p _ _, .decimal128B _ _ _ => writeDecimalUsesWide p
  | .stringA _, .stringB _ _ _ => true
  | .binaryA _, .stringB _ _ _ => true
  | .fixedBinaryA _ _, .stringB _ _ _ => true
  | .structA _ fs, .structB _ _ fbs => bmatchFieldsB fs fbs
  | .listA _ _ values, .listB _ _ _ elemB => bmatchB values elemB
  | .mapA _ _ keys items, .mapB _ _ _ keyB elemB =>
      bmatchB keys keyB && bmatchB items elemB
  | _, _ => false

def bmatchFieldsB : AArrList → OBatchList → Bool
  | .nil, .nil => true
  | .cons f ftl, .cons fb fbtl => bmatchB f fb && bmatchFieldsB ftl fbtl
  | _, _ => false

end

mutual

/-- The translated ORC type of an array, i.e. the value
`GetORCType (atypeOf a)` computes (fixed-size binary maps to plain
`binary`; date64 and non-nano timestamps all map to `timestamp`). -/
def orcTypeOf : AArr → OType
  | .boolA _ => .boolean
  | .int8A _ => .byte
  | .int16A _ => .short
  | .int32A _ => .int
  | .int64A _ => .long
  | .date32A _ => .date
  | .timestampA _ _ => .timestamp
  | .decimalA p s _ => .decimal p s
  | .stringA _ => .string
  | .binaryA _ => .binary
  | .fixedBinaryA _ _ => .binary
  | .structA _ fs => .structT (orcFieldsOf fs)
  | .listA _ _ v => .list (orcTypeOf v)
  | .mapA _ _ k v => .mapT (orcTypeOf k) (orcTypeOf v)

def orcFieldsOf : AArrList → OFieldList
  | .nil => .nil
  | .cons f tl => .cons "" (orcTypeOf f) (orcFieldsOf tl)

end

mutual

/-- The empty array of the same type as `a` (what a fresh builder for
`a`'s type finalizes to before any append). -/
def emptyLike : AArr → AArr
  | .boolA _ => .boolA []
  | .int8A _ => .int8A []
  | .int16A _ => .int16A []
  | .int32A _ => .int32A []
  | .int64A _ => .int64A []
  | .date32A _ => .date32A []
  | .timestampA u _ => .timestampA u []
  | .decimalA p s _ => .decimalA p s []
  | .stringA _ => .stringA []
  | .binaryA _ => .binaryA []
  | .fixedBinaryA w _ => .fixedBinaryA w []
  | .structA _ fs => .structA [] (emptyLikeFields fs)
  | .listA _ _ v => .listA [] [0] (emptyLike v)
  | .mapA _ _ k v => .mapA [] [0] (emptyLike k) (emptyLike v)

def emptyLikeFields : AArrList → AArrList
  | .nil => .nil
  | .cons f tl => .cons (emptyLike f) (emptyLikeFields tl)

end

/-- The field at index `j` of a struct array (`struct_array->field(j)`),
`none` for non-structs or out-of-range indices. -/
def fieldAt : AArr → Nat → Option AArr
  | .structA _ fs, j => fieldsGet fs j
  | _, _ => none
where
  fieldsGet : AArrList → Nat → Option AArr
    | .nil, _ => none
    | .cons f _, 0 => some f
    | .cons _ tl, j + 1 => fieldsGet tl j

/-- The descendant of an array along a path of struct-field indices. -/
def structDescAt (a : AArr) : List Nat → Option AArr
  | [] => some a
  | j :: rest => match fieldAt a j with
      | some f => structDescAt f rest
      | none => none

/-- The field batch at index `j` of a struct batch (`batch->fields[j]`). -/
def obFieldAt : OBatch → Nat → Option OBatch
  | .structB _ _ fbs, j => obFieldsGet fbs j
  | _, _ => none
where
  obFieldsGet : OBatchList → Nat → Option OBatch
    | .nil, _ => none
    | .cons f _, 0 => some f
    | .cons _ tl, j + 1 => obFieldsGet tl j

/-- The descendant of a batch along a path of struct-field indices. -/
def obDescAt (b : OBatch) : List Nat → Option OBatch
  | [] => some b
  | j :: rest => match obFieldAt b j with
      | some f => obDescAt f rest
      | none => none

/-- The `notNull` flag of a batch at a slot. -/
def obNotNullAt : OBatch → Nat → Bool
  | .longB _ nn _, i => nn i
  | .stringB _ nn _, i => nn i
  | .timestampB _ nn _ _, i => nn i
  | .decimal64B _ nn _, i => nn i
  | .decimal128B _ nn _, i => nn i
  | .structB _ nn _, i => nn i
  | .listB _ nn _ _, i => nn i
  | .mapB _ nn _ _ _, i => nn i

/-- The `hasNulls` flag of a batch. -/
def obHasNulls : OBatch → Bool
  | .longB h _ _ => h
  | .stringB h _ _ => h
  | .timestampB h _ _ _ => h
  | .decimal64B h _ _ => h
  | .decimal128B h _ _ => h
  | .structB h _ _ => h
  | .listB h _ _ _ => h
  | .mapB h _ _ _ _ => h

/-- Rows consumed by the encode cursor pair: all chunks before
`arrowChunkOffset`, plus `arrowIndexOffset` rows of the current chunk. -/
def cursorConsumed (chunks : List AArr) (idx chunkOff : Nat) : Nat :=
  ((chunks.take chunkOff).map alen).sum + idx

/-- The supported set of ORC kinds of the spec's schema-translation table
(every ORC kind with a decode appender: all kinds except UNION). -/
def specSupportedOrcKinds : List OrcKind :=
  [.STRUCT, .LIST, .MAP, .LONG, .INT, .SHORT, .BYTE, .DOUBLE, .FLOAT,
   .BOOLEAN, .VARCHAR, .STRING, .BINARY, .CHAR, .DATE, .TIMESTAMP, .DECIMAL]

/-- The supported set of Arrow type ids of the spec's schema-translation
table for the encode path (dictionary columns are resolved before writing;
a dictionary-typed array reaching the writer is unsupported). -/
def specSupportedArrowIds : List ArrowTypeId :=
  [.BOOL, .INT8, .INT16, .INT32, .INT64, .FLOAT, .DOUBLE, .BINARY,
   .LARGE_BINARY, .STRING, .LARGE_STRING, .FIXED_SIZE_BINARY, .DATE32,
   .DATE64, .TIMESTAMP, .DECIMAL128, .STRUCT, .LIST, .LARGE_LIST,
   .FIXED_SIZE_LIST, .MAP]

/-- The type codes of a sparse-union type (empty for other types). -/
def unionTypeCodes : AType → List Int
  | .sparseUnion _ codes => codes
  | _ => []

/-- The field names of a field list. -/
def afieldNames : AFieldList → List String
  | .nil => []
  | .cons n _ tl => n :: afieldNames tl

/-- The field names of a sparse-union type (empty for other types). -/
def unionFieldNames : AType → List String
  | .sparseUnion fs _ => afieldNames fs
  | _ => []

/-- `n` copies of an ORC type, as a union's children list. -/
def replicateOType : Nat → OType → OTypeList
  | 0, _ => .nil
  | n + 1, t => .cons t (replicateOType n t)

/-- Number of children of a union type descriptor
(`type->getSubtypeCount()`). -/
def otListLength : OTypeList → Nat
  | .nil => 0
  | .cons _ tl => 1 + otListLength tl

theorem wrapSigned_eq_self (w : Nat) (x : Int) (hlo : -(2 ^ (w - 1)) ≤ x)
    (hhi : x < 2 ^ (w - 1)) (hw : 1 ≤ w) : wrapSigned w x = x := by
  unfold wrapSigned
  have h2 : (2 : Int) ^ w = 2 ^ (w - 1) * 2 := by
    have hww : w - 1 + 1 = w := by omega
    conv_lhs => rw [← hww]
    rw [pow_succ]
  have hnn : 0 ≤ x + 2 ^ (w - 1) := by omega
  have hlt : x + 2 ^ (w - 1) < 2 ^ w := by omega
  rw [Int.emod_eq_of_lt hnn hlt]
  omega

theorem svals_full {γ : Type} (xs : List γ) : svals 0 xs.length xs = xs := by
  simp [svals]

theorem writeOptVals_frame {α β : Type} (store : α → β) (vals : List (Option α)) (o : Nat)
    (nn : Nat → Bool) (d : Nat → β) (j : Nat) (hj : j < o) :
    (writeOptVals store vals o nn d).1 j = nn j ∧
      (writeOptVals store vals o nn d).2 j = d j := by
  induction vals generalizing o nn d with
  | nil => exact ⟨rfl, rfl⟩
  | cons v rest ih =>
    cases v with
    | none =>
      have h2 := ih (o + 1) (updB nn o false) d (by omega)
      rw [writeOptVals]
      refine ⟨h2.1.trans ?_, h2.2⟩
      simp [updB]
      omega
    | some v =>
      have h2 := ih (o + 1) (updB nn o true) (updB d o (store v)) (by omega)
      rw [writeOptVals]
      refine ⟨h2.1.trans ?_, h2.2.trans ?_⟩ <;> simp [updB] <;> omega

theorem writeOptVals_notNull_get {α β : Type} (store : α → β) (vals : List (Option α))
    (o : Nat) (nn : Nat → Bool) (d : Nat → β) (k : Nat) (hk : k < vals.length) :
    (writeOptVals store vals o nn d).1 (o + k) = (vals.getD k none).isSome := by
  induction vals generalizing o nn d k with
  | nil => simp at hk
  | cons v rest ih =>
    cases k with
    | zero =>
      cases v with
      | none =>
        rw [writeOptVals]
        have := writeOptVals_frame store rest (o + 1) (updB nn o false) d o (by omega)
        simpa [updB] using this.1
      | some v =>
        rw [writeOptVals]
        have := writeOptVals_frame store rest (o + 1) (updB nn o true)
          (updB d o (store v)) o (by omega)
        simpa [updB] using this.1
    | succ k =>
      have hk2 : k < rest.length := by simp at hk; omega
      have harith : o + (k + 1) = (o + 1) + k := by omega
      cases v with
      | none =>
        rw [writeOptVals, harith, ih (o + 1) (updB nn o false) d k hk2]
        simp
      | some v =>
        rw [writeOptVals, harith,
          ih (o + 1) (updB nn o true) (updB d o (store v)) k hk2]
        simp

theorem writeTsVals_frame (f g : Int) (vals : List (Option Int)) (o : Nat)
    (nn : Nat → Bool) (sec nano : Nat → Int) (j : Nat) (hj : j < o) :
    (writeTsVals f g vals o nn sec nano).1 j = nn j ∧
      (writeTsVals f g vals o nn sec nano).2.1 j = sec j ∧
      (writeTsVals f g vals o nn sec nano).2.2 j = nano j := by
  induction vals generalizing o nn sec nano with
  | nil => exact ⟨rfl, rfl, rfl⟩
  | cons v rest ih =>
    cases v with
    | none =>
      have h2 := ih (o + 1) (updB nn o false) sec nano (by omega)
      rw [writeTsVals]
      refine ⟨h2.1.trans ?_, h2.2.1, h2.2.2⟩
      simp [updB]
      omega
    | some v =>
      have h2 := ih (o + 1) (updB nn o true)
        (updB sec o (tsEncodePair f g v).1) (updB nano o (tsEncodePair f g v).2) (by omega)
      rw [writeTsVals]
      refine ⟨h2.1.trans ?_, h2.2.1.trans ?_, h2.2.2.trans ?_⟩ <;> simp [updB] <;> omega

theorem writeTsVals_get (f g : Int) (vals : List (Option Int)) (o : Nat)
    (nn : Nat → Bool) (sec nano : Nat → Int) (k : Nat) (hk : k < vals.length) :
    (writeTsVals f g vals o nn sec nano).1 (o + k) = (vals.getD k none).isSome ∧
      (∀ v, vals.getD k none = some v →
        (writeTsVals f g vals o nn sec nano).2.1 (o + k) = (tsEncodePair f g v).1 ∧
        (writeTsVals f g vals o nn sec nano).2.2 (o + k) = (tsEncodePair f g v).2) := by
  induction vals generalizing o nn sec nano k with
  | nil => simp at hk
  | cons w rest ih =>
    cases k with
    | zero =>
      cases w with
      | none =>
        rw [writeTsVals]
        have := writeTsVals_frame f g rest (o + 1) (updB nn o false) sec nano o (by omega)
        refine ⟨by simpa [updB] using this.1, ?_⟩
        intro v hv
        rw [List.getD_cons_zero] at hv
        exact absurd hv (by simp)
      | some w =>
        rw [writeTsVals]
        have := writeTsVals_frame f g rest (o + 1) (updB nn o true)
          (updB sec o (tsEncodePair f g w).1) (updB nano o (tsEncodePair f g w).2) o
          (by omega)
        refine ⟨by simpa [updB] using this.1, ?_⟩
        intro v hv
        rw [List.getD_cons_zero] at hv
        cases hv
        exact ⟨by simpa [updB] using this.2.1, by simpa [updB] using this.2.2⟩
    | succ k =>
      have hk2 : k < rest.length := by simp at hk; omega
      have harith : o + (k + 1) = (o + 1) + k := by omega
      cases w with
      | none =>
        rw [writeTsVals, harith]
        have := ih (o + 1) (updB nn o false) sec nano k hk2
        exact ⟨this.1, fun v hv => this.2 v (by rw [List.getD_cons_succ] at hv; exact hv)⟩
      | some w =>
        rw [writeTsVals, harith]
        have := ih (o + 1) (updB nn o true)
          (updB sec o (tsEncodePair f g w).1) (updB nano o (tsEncodePair f g w).2) k hk2
        exact ⟨this.1, fun v hv => this.2 v (by rw [List.getD_cons_succ] at hv; exact hv)⟩

theorem writeValidity_frame (sl : List Bool) (o : Nat) (nn : Nat → Bool) (j : Nat)
    (hj : j < o) : writeValidity sl o nn j = nn j := by
  induction sl generalizing o nn with
  | nil => rfl
  | cons b rest ih =>
    rw [writeValidity]
    rw [ih (o + 1) (updB nn o b) (by omega)]
    simp [updB]
    omega

theorem writeValidity_get (sl : List Bool) (o : Nat) (nn : Nat → Bool) (k : Nat)
    (hk : k < sl.length) : writeValidity sl o nn (o + k) = sl.getD k true := by
  induction sl generalizing o nn k with
  | nil => simp at hk
  | cons b rest ih =>
    cases k with
    | zero =>
      rw [writeValidity]
      have := writeValidity_frame rest (o + 1) (updB nn o b) o (by omega)
      simpa [updB] using this
    | succ k =>
      have hk2 : k < rest.length := by simp at hk; omega
      have harith : o + (k + 1) = (o + 1) + k := by omega
      rw [writeValidity, harith, ih (o + 1) (updB nn o b) k hk2]
      simp

set_option maxHeartbeats 1600000
set_option maxRecDepth 4000

theorem nodes_pos (a : AArr) : 1 ≤ nodes a := by
  cases a <;> (simp [nodes]; try omega)

/-- C4: the claim is false on the code for negative values: the timestamp
writer computes `std::floor(data / factor)` where the division is already
C++ `int64_t` division (truncation toward zero), not the mathematical
floor.  At value -1 with millisecond factors (1000, 10^6), the writer
stores (0, -1000000) into the (seconds, nanoseconds) buffers, while the
claimed floor formula gives (-1, 999000000). -/
theorem c4_timestamp_floor_counterexample :
    WriteBatchRoute (.timestamp .milli) = .timestampW 1000 1000000 ∧
    (((WriteBatchArr (.timestampA .milli [some (-1)]) 0 1 0
          (.timestampB false (fun _ => true) (fun _ => 0) (fun _ => 0))).map
        (fun b => match b with
          | .timestampB _ _ sec nano => some (sec 0, nano 0)
          | _ => none)) = .ok (some ((0 : Int), (-1000000 : Int)))) ∧
    tsEncodePairSpec 1000 1000000 (-1) = (-1, 999000000) ∧
    tsEncodePair 1000 1000000 (-1) ≠ tsEncodePairSpec 1000 1000000 (-1) := by
  refine ⟨by decide, ?_, by decide, by decide⟩
  have h : WriteBatchArr (.timestampA .milli [some (-1)]) 0 1 0
      (.timestampB false (fun _ => true) (fun _ => 0) (fun _ => 0)) =
      .ok (.timestampB false
        (updB (fun _ => true) 0 true)
        (updB (fun _ => 0) 0 (tsEncodePair 1000 1000000 (-1)).1)
        (updB (fun _ => 0) 0 (tsEncodePair 1000 1000000 (-1)).2)) := by
    simp +decide [WriteBatchArr, alen, svals, writeTsVals, timestampFactors,
      kOneSecondMillis, kOneMilliNanos]
  rw [h]
  simp [Except.map, updB]
  decide

/-- C4 (amended): the timestamp writer stores, for each value `v`, the
pair `(trunc(v / f), (v - f * trunc(v / f)) * g)` with `(f, g)` the
factor pair the dispatcher selects by unit — second: (1, 10^9);
millisecond: (10^3, 10^6); microsecond: (10^6, 10^3); nanosecond:
(10^9, 1); date64 uses the millisecond factors — and the stored pair
agrees with the spec's floor formula whenever `0 ≤ v`. -/
theorem c4_timestamp_encode_amended :
    (WriteBatchRoute (.timestamp .second) = .timestampW 1 1000000000 ∧
      WriteBatchRoute (.timestamp .milli) = .timestampW 1000 1000000 ∧
      WriteBatchRoute (.timestamp .micro) = .timestampW 1000000 1000 ∧
      WriteBatchRoute (.timestamp .nano) = .timestampW 1000000000 1 ∧
      WriteBatchRoute .date64 = .timestampW 1000 1000000) ∧
    (∀ f g v : Int, tsEncodePair f g v = (v.tdiv f, (v - f * v.tdiv f) * g)) ∧
    (∀ (u : ATimeUnit) (vals : List (Option Int)) (o : Nat) (nn : Nat → Bool)
      (sec nano : Nat → Int) (k : Nat) (v : Int), vals.getD k none = some v →
      (writeTsVals (timestampFactors u).1 (timestampFactors u).2 vals o nn sec nano).2.1
          (o + k) =
        (tsEncodePair (timestampFactors u).1 (timestampFactors u).2 v).1 ∧
      (writeTsVals (timestampFactors u).1 (timestampFactors u).2 vals o nn sec nano).2.2
          (o + k) =
        (tsEncodePair (timestampFactors u).1 (timestampFactors u).2 v).2) ∧
    (∀ (u : ATimeUnit) (v : Int), 0 ≤ v →
      tsEncodePair (timestampFactors u).1 (timestampFactors u).2 v =
        tsEncodePairSpec (timestampFactors u).1 (timestampFactors u).2 v) := by
  refine ⟨by refine ⟨rfl, rfl, rfl, rfl, rfl⟩, fun f g v => rfl, ?_, ?_⟩
  · intro u vals o nn sec nano k v hv
    have hk : k < vals.length := by
      by_contra hk
      rw [List.getD_eq_default] at hv
      · exact absurd hv (by simp)
      · omega
    exact (writeTsVals_get (timestampFactors u).1 (timestampFactors u).2
      vals o nn sec nano k hk).2 v hv
  · intro u v hv
    have htf : ∀ f g : Int, 0 < f → tsEncodePair f g v = tsEncodePairSpec f g v := by
      intro f g hf
      unfold tsEncodePair tsEncodePairSpec
      rw [Int.tdiv_eq_ediv hv (by omega), Int.fdiv_eq_ediv _ (by omega)]
    cases u <;> exact htf _ _ (by decide)

/-- C4 witness: the writer/spec agreement instantiated at value 5 with
microsecond factors, and the stored-pair characterization at a concrete
one-element buffer. -/
theorem c4_timestamp_encode_amended_witness :
    (writeTsVals 1000000 1000 [some 5] 0 (fun _ => true) (fun _ => 0) (fun _ => 0)).2.1 0 =
        (tsEncodePair 1000000 1000 5).1 ∧
    tsEncodePair 1000000 1000 5 = tsEncodePairSpec 1000000 1000 5 := by
  constructor
  · have := (c4_timestamp_encode_amended.2.2.1 ATimeUnit.micro [some 5] 0
      (fun _ => true) (fun _ => 0) (fun _ => 0) 0 5 (by decide)).1
    simpa [timestampFactors, kOneSecondMicros, kOneMicroNanos] using this
  · have := c4_timestamp_encode_amended.2.2.2 ATimeUnit.micro 5 (by decide)
    simpa [timestampFactors, kOneSecondMicros, kOneMicroNanos] using this

/-- C5: the claim is false on the code at precision 0: the decode path
(`AppendDecimalBatch`) treats precision 0 as wide
(`precision == 0 || precision > 18`), but the encode path (`WriteBatch`'s
decimal case) tests only `precision > 18` and so treats precision 0 as
narrow — the thresholds are not identical at 0. -/
theorem c5_decimal_threshold_counterexample :
    appendDecimalUsesWide 0 = true ∧ writeDecimalUsesWide 0 = false ∧
      appendDecimalUsesWide 0 ≠ writeDecimalUsesWide 0 := by
  decide

/-- C5 (amended): precision 18 selects the narrow physical path and 19 the
wide path on both sides; precision 0 decodes as decimal(38,6); and the
narrow/wide threshold is identical on the encode and decode paths for
every precision at least 1 (the treatment of precision 0 differs: wide on
decode, narrow on encode). -/
theorem c5_decimal_threshold_amended :
    appendDecimalUsesWide 18 = false ∧ writeDecimalUsesWide 18 = false ∧
    appendDecimalUsesWide 19 = true ∧ writeDecimalUsesWide 19 = true ∧
    (∀ s : Nat, GetArrowType (.decimal 0 s) = .ok (.decimal128 38 6)) ∧
    (∀ p s : Nat, 1 ≤ p →
      appendDecimalUsesWide p = writeDecimalUsesWide p ∧
      GetArrowType (.decimal p s) = .ok (.decimal128 p s)) := by
  refine ⟨by decide, by decide, by decide, by decide, fun s => rfl, ?_⟩
  intro p s hp
  constructor
  · simp [appendDecimalUsesWide, writeDecimalUsesWide]
    omega
  · have hp0 : ¬(p = 0) := by omega
    simp [GetArrowType, hp0]

/-- C5 witness: the amended claim instantiated at precision 7, scale 2. -/
theorem c5_decimal_threshold_amended_witness :
    appendDecimalUsesWide 7 = writeDecimalUsesWide 7 ∧
      GetArrowType (.decimal 7 2) = .ok (.decimal128 7 2) :=
  c5_decimal_threshold_amended.2.2.2.2.2 7 2 (by decide)

/-- C6: the decode-path timestamp appender combines each element's
physical (seconds, nanoseconds) pair as `seconds * 10^9 + nanoseconds`,
and `GetArrowType` maps every ORC TIMESTAMP column to the
nanosecond-unit Arrow timestamp type; the appender appends those
combined values whatever unit the destination builder carries. -/
theorem c6_timestamp_decode_nano :
    GetArrowType .timestamp = .ok (.timestamp .nano) ∧
    (∀ (h : Bool) (nn : Nat → Bool) (sec nano : Nat → Int) (offset len k : Nat),
      k < len →
      (readTsVals h nn sec nano offset len).getD k none =
        (if h && !nn (offset + k) then none
         else some (sec (offset + k) * 1000000000 + nano (offset + k)))) ∧
    (∀ (u : ATimeUnit) (bv : List (Option Int)) (h : Bool) (nn : Nat → Bool)
      (sec nano : Nat → Int) (offset len : Nat),
      AppendBatch .timestamp (.timestampB h nn sec nano) offset len (.timestampA u bv) =
        .ok (.timestampA u (bv ++ readTsVals h nn sec nano offset len))) := by
  refine ⟨rfl, ?_, ?_⟩
  · intro h nn sec nano offset len k hk
    unfold readTsVals
    rw [List.getD_eq_getElem?_getD, List.getElem?_map, List.getElem?_range hk]
    simp [tsDecodeVal, kOneSecondNanos]
  · intro u bv h nn sec nano offset len
    simp [AppendBatch]

/-- C6 witness: the recombination read at a concrete one-slot batch with
seconds 3 and nanoseconds 4. -/
theorem c6_timestamp_decode_nano_witness :
    (readTsVals true (fun _ => true) (fun _ => 3) (fun _ => 4) 0 1).getD 0 none =
      some (3 * 1000000000 + 4) := by
  have := c6_timestamp_decode_nano.2.1 true (fun _ => true) (fun _ => 3) (fun _ => 4)
    0 1 0 (by decide)
  simpa using this

/-- C9: for every type tag outside the supported set, both dispatchers
fail rather than approximating: the decode dispatch table and the
decode-path `AppendBatch` return a not-implemented error carrying the
ORC kind, and the encode dispatch table returns an invalid-type error
carrying the Arrow type id; no unrecognized tag reaches a conversion
routine. -/
theorem c9_unsupported_types_fail :
    (∀ k : OrcKind, k ∉ specSupportedOrcKinds →
      AppendBatchRoute k = .fail (.notImplementedKind k)) ∧
    (∀ t : OType, OTypeKind t ∉ specSupportedOrcKinds →
      ∀ (b : OBatch) (offset len : Nat) (acc : AArr),
        AppendBatch t b offset len acc = .error (.notImplementedKind (OTypeKind t))) ∧
    (∀ t : AType, ATypeId t ∉ specSupportedArrowIds →
      WriteBatchRoute t = .fail (.invalidArrowType (ATypeId t))) := by
  refine ⟨?_, ?_, ?_⟩
  · intro k
    cases k <;> decide
  · intro t ht b offset len acc
    cases t
    case union alts => simp [AppendBatch, OTypeKind]
    all_goals exact absurd (by simp [OTypeKind, specSupportedOrcKinds]) ht
  · intro t ht
    cases t <;> first
      | rfl
      | exact absurd (by simp [ATypeId, specSupportedArrowIds]) ht

/-- C9 witness: the UNION kind on the decode side and a dictionary-typed
column on the encode side. -/
theorem c9_unsupported_types_fail_witness :
    AppendBatchRoute .UNION = .fail (.notImplementedKind .UNION) ∧
      WriteBatchRoute (.dictionary .int32) = .fail (.invalidArrowType .DICTIONARY) := by
  constructor
  · exact c9_unsupported_types_fail.1 .UNION (by decide)
  · have := c9_unsupported_types_fail.2.2 (.dictionary .int32) (by decide)
    simpa [ATypeId] using this

theorem otNodes_pos (t : OType) : 1 ≤ otNodes t := by
  cases t <;> (simp [otNodes]; try omega)

theorem getArrowType_total_aux (N : Nat) :
    (∀ t : OType, otNodes t ≤ N → ∃ a, GetArrowType t = .ok a) ∧
      (∀ fs : OFieldList, otNodesF fs ≤ N →
        ∃ afs, GetArrowTypeFields fs = .ok afs) ∧
      (∀ (alts : OTypeList) (c : Nat), otNodesU alts ≤ N →
        ∃ r, GetArrowTypeUnion alts c = .ok r) := by
  induction N with
  | zero =>
    refine ⟨?_, ?_, ?_⟩
    · intro t hn
      have := otNodes_pos t
      omega
    · intro fs hn
      cases fs with
      | nil => exact ⟨.nil, rfl⟩
      | cons name ty tl =>
        have := otNodes_pos ty
        simp only [otNodesF] at hn
        omega
    · intro alts c hn
      cases alts with
      | nil => exact ⟨(.nil, []), rfl⟩
      | cons hd tl =>
        have := otNodes_pos hd
        simp only [otNodesU] at hn
        omega
  | succ N ih =>
    refine ⟨?_, ?_, ?_⟩
    · intro t hn
      cases t with
      | decimal p sc =>
        refine ⟨if p = 0 then .decimal128 38 6 else .decimal128 p sc, ?_⟩
        by_cases hp : p = 0 <;> simp [GetArrowType, hp]
      | list e =>
        have he : otNodes e ≤ N := by simp only [otNodes] at hn; omega
        obtain ⟨a, ha⟩ := ih.1 e he
        exact ⟨.list a, by simp [GetArrowType, ha, bind, Except.bind]⟩
      | mapT k v =>
        have hk : otNodes k ≤ N := by
          simp only [otNodes] at hn
          have := otNodes_pos v
          omega
        have hv : otNodes v ≤ N := by
          simp only [otNodes] at hn
          have := otNodes_pos k
          omega
        obtain ⟨ka, hka⟩ := ih.1 k hk
        obtain ⟨va, hva⟩ := ih.1 v hv
        exact ⟨.mapT ka va, by simp [GetArrowType, hka, hva, bind, Except.bind]⟩
      | structT fs =>
        have hfs : otNodesF fs ≤ N := by simp only [otNodes] at hn; omega
        obtain ⟨afs, hafs⟩ := ih.2.1 fs hfs
        exact ⟨.structT afs, by simp [GetArrowType, hafs, bind, Except.bind]⟩
      | union alts =>
        have halts : otNodesU alts ≤ N := by simp only [otNodes] at hn; omega
        obtain ⟨r, hr⟩ := ih.2.2 alts 0 halts
        exact ⟨.sparseUnion r.1 r.2, by simp [GetArrowType, hr, bind, Except.bind]⟩
      | _ => exact ⟨_, rfl⟩
    · intro fs hn
      cases fs with
      | nil => exact ⟨.nil, rfl⟩
      | cons name ty tl =>
        have hty : otNodes ty ≤ N := by
          simp only [otNodesF] at hn
          have := otNodes_pos ty
          omega
        have htl : otNodesF tl ≤ N := by
          simp only [otNodesF] at hn
          have := otNodes_pos ty
          omega
        obtain ⟨a, ha⟩ := ih.1 ty hty
        obtain ⟨afs, hafs⟩ := ih.2.1 tl htl
        exact ⟨.cons name a afs, by simp [GetArrowTypeFields, ha, hafs, bind, Except.bind]⟩
    · intro alts c hn
      cases alts with
      | nil => exact ⟨(.nil, []), rfl⟩
      | cons hd tl =>
        have hhd : otNodes hd ≤ N := by
          simp only [otNodesU] at hn
          have := otNodes_pos hd
          omega
        have htl : otNodesU tl ≤ N := by
          simp only [otNodesU] at hn
          have := otNodes_pos hd
          omega
        obtain ⟨a, ha⟩ := ih.1 hd hhd
        obtain ⟨r, hr⟩ := ih.2.2 tl (c + 1) htl
        exact ⟨(.cons ("_union_" ++ toString c) a r.1, wrapSigned 8 (Int.ofNat c) :: r.2),
          by simp [GetArrowTypeUnion, ha, hr, bind, Except.bind]⟩

theorem getArrowType_total (t : OType) : ∃ a, GetArrowType t = .ok a :=
  (getArrowType_total_aux (otNodes t)).1 t (Nat.le_refl _)

theorem getArrowTypeUnion_spec :
    ∀ (n : Nat) (alts : OTypeList) (c : Nat), otListLength alts = n →
      ∃ fields codes, GetArrowTypeUnion alts c = .ok (fields, codes) ∧
        afieldNames fields = (List.range n).map (fun i => "_union_" ++ toString (c + i)) ∧
        codes = (List.range n).map (fun i => wrapSigned 8 (Int.ofNat (c + i))) := by
  intro n
  induction n with
  | zero =>
    intro alts c hn
    cases alts with
    | nil => exact ⟨.nil, [], rfl, by simp [afieldNames], by simp⟩
    | cons hd tl => simp [otListLength] at hn
  | succ n ih =>
    intro alts c hn
    cases alts with
    | nil => simp [otListLength] at hn
    | cons hd tl =>
      obtain ⟨a, ha⟩ := getArrowType_total hd
      obtain ⟨fields, codes, hrec, hnames, hcodes⟩ := ih tl (c + 1)
        (by simp only [otListLength] at hn; omega)
      refine ⟨.cons ("_union_" ++ toString c) a fields,
        wrapSigned 8 (Int.ofNat c) :: codes, ?_, ?_, ?_⟩
      · simp [GetArrowTypeUnion, ha, hrec, bind, Except.bind]
      · show ("_union_" ++ toString c) :: afieldNames fields = _
        rw [hnames, List.range_succ_eq_map, List.map_cons, List.map_map]
        congr 1
        apply List.map_congr_left
        intro i _
        simp only [Function.comp]
        congr 2
        omega
      · rw [hcodes, List.range_succ_eq_map, List.map_cons, List.map_map]
        congr 1
        apply List.map_congr_left
        intro i _
        simp only [Function.comp]
        congr 2
        omega

/-- C10: the claim is false on the code for unions with more than 128
children: the type codes are produced by `static_cast<int8_t>(child)`,
which wraps, so the union of 129 children gets type code -128 (not 128)
at index 128. -/
theorem c10_union_codes_counterexample :
    ((GetArrowType (.union (replicateOType 129 .boolean))).map
        (fun t => (unionTypeCodes t).getD 128 0)) = .ok (-128) ∧
      ((-128 : Int) ≠ (128 : Int)) := by
  constructor
  · rfl
  · decide

/-- C10 (amended): for every ORC UNION descriptor with `n` children,
`GetArrowType` succeeds and produces a sparse union whose fields are
named `_union_0` through `_union_<n-1>` and whose type codes are the
`int8`-wrapped child indices — equal to `0..n-1` whenever `n ≤ 128` —
yet `AppendBatch` on a UNION kind returns a not-implemented error
naming the kind: union columns are schema-translatable but not
decodable. -/
theorem c10_union_schema_only (alts : OTypeList) :
    ∃ fields codes, GetArrowType (.union alts) = .ok (.sparseUnion fields codes) ∧
      afieldNames fields =
        (List.range (otListLength alts)).map (fun i => "_union_" ++ toString i) ∧
      codes = (List.range (otListLength alts)).map (fun i => wrapSigned 8 (Int.ofNat i)) ∧
      (otListLength alts ≤ 128 →
        codes = (List.range (otListLength alts)).map (fun i => Int.ofNat i)) ∧
      (∀ (b : OBatch) (offset len : Nat) (acc : AArr),
        AppendBatch (.union alts) b offset len acc =
          .error (.notImplementedKind .UNION)) := by
  obtain ⟨fields, codes, hu, hnames, hcodes⟩ :=
    getArrowTypeUnion_spec (otListLength alts) alts 0 rfl
  refine ⟨fields, codes, ?_, ?_, ?_, ?_, ?_⟩
  · simp [GetArrowType, hu, bind, Except.bind]
  · rw [hnames]
    apply List.map_congr_left
    intro i _
    congr 2
    omega
  · rw [hcodes]
    apply List.map_congr_left
    intro i _
    congr 2
    omega
  · intro hn
    rw [hcodes]
    apply List.map_congr_left
    intro i hi
    rw [List.mem_range] at hi
    rw [show (0 : Nat) + i = i from by omega]
    have hio : Int.ofNat i = (i : Int) := rfl
    apply wrapSigned_eq_self 8 (Int.ofNat i)
      (by rw [hio]; norm_num; try omega) (by rw [hio]; norm_num; try omega) (by omega)
  · intro b offset len acc
    simp [AppendBatch, OTypeKind]

/-- C10 witness: the union of (boolean, int) maps to field names
`_union_0`, `_union_1` with codes `[0, 1]`. -/
theorem c10_union_schema_only_witness :
    ((GetArrowType (.union (.cons .boolean (.cons .int .nil)))).map unionTypeCodes =
        .ok [(0 : Int), 1]) ∧
      ((GetArrowType (.union (.cons .boolean (.cons .int .nil)))).map unionFieldNames =
        .ok ["_union_0", "_union_1"]) := by
  obtain ⟨fields, codes, hg, hnames, _, hsmall, _⟩ :=
    c10_union_schema_only (.cons .boolean (.cons .int .nil))
  rw [hg, hsmall (by decide)] at *
  constructor
  · simp [Except.map, unionTypeCodes]
    decide
  · simp [Except.map, unionFieldNames, hnames]
    decide

theorem range_succ_shift {α : Type} (f : Nat → α) (j n : Nat) :
    (List.range (n + 1)).map (fun k => f (j + k)) =
      f j :: (List.range n).map (fun k => f (j + 1 + k)) := by
  rw [List.range_succ_eq_map, List.map_cons, List.map_map]
  congr 1
  apply List.map_congr_left
  intro i _
  simp only [Function.comp]
  congr 1
  omega

theorem alen_append (t : OType) :
    ∀ (N : Nat), otNodes t ≤ N → ∀ (b : OBatch) (offset len : Nat) (acc r : AArr),
      AppendBatch t b offset len acc = .ok r → alen r = alen acc + len := by
  have hslots : ∀ (et : OType),
      (∀ (b : OBatch) (offset len : Nat) (acc r : AArr),
        AppendBatch et b offset len acc = .ok r → alen r = alen acc + len) →
      ∀ (len : Nat) (elemB : OBatch) (h : Bool) (nn : Nat → Bool) (offB : Nat → Int)
        (j : Nat) (bv : List Bool) (boffs : List Int) (bvals r : AArr),
        appendListSlots et elemB h nn offB j len bv boffs bvals = .ok r →
        alen r = bv.length + len := by
    intro et hchild len
    induction len with
    | zero =>
      intro elemB h nn offB j bv boffs bvals r hok
      rw [appendListSlots] at hok
      cases hok
      simp [alen]
    | succ len ih =>
      intro elemB h nn offB j bv boffs bvals r hok
      rw [appendListSlots] at hok
      by_cases hc : (!h || nn j) = true
      · rw [if_pos hc] at hok
        simp only [bind, Except.bind] at hok
        cases hres : AppendBatch et elemB (offB j).toNat
            ((offB (j + 1) - offB j).toNat) bvals with
        | error e => rw [hres] at hok; cases hok
        | ok bvals1 =>
          rw [hres] at hok
          have := ih elemB h nn offB (j + 1) (bv ++ [true])
            (boffs ++ [Int.ofNat (alen bvals1)]) bvals1 r hok
          simp at this
          omega
      · rw [if_neg hc] at hok
        have := ih elemB h nn offB (j + 1) (bv ++ [false])
          (boffs ++ [Int.ofNat (alen bvals)]) bvals r hok
        simp at this
        omega
  have hmslots : ∀ (kt vt : OType),
      (∀ (b : OBatch) (offset len : Nat) (acc r : AArr),
        AppendBatch kt b offset len acc = .ok r → alen r = alen acc + len) →
      (∀ (b : OBatch) (offset len : Nat) (acc r : AArr),
        AppendBatch vt b offset len acc = .ok r → alen r = alen acc + len) →
      ∀ (len : Nat) (keyB elemB : OBatch) (h : Bool) (nn : Nat → Bool) (offB : Nat → Int)
        (j : Nat) (bv : List Bool) (boffs : List Int) (bkeys bitems r : AArr),
        appendMapSlots kt vt keyB elemB h nn offB j len bv boffs bkeys bitems = .ok r →
        alen r = bv.length + len := by
    intro kt vt hkey hitem len
    induction len with
    | zero =>
      intro keyB elemB h nn offB j bv boffs bkeys bitems r hok
      rw [appendMapSlots] at hok
      cases hok
      simp [alen]
    | succ len ih =>
      intro keyB elemB h nn offB j bv boffs bkeys bitems r hok
      rw [appendMapSlots] at hok
      by_cases hc : (!h || nn j) = true
      · rw [if_pos hc] at hok
        simp only [bind, Except.bind] at hok
        cases hkres : AppendBatch kt keyB (offB j).toNat
            ((offB (j + 1) - offB j).toNat) bkeys with
        | error e => rw [hkres] at hok; cases hok
        | ok bkeys1 =>
          rw [hkres] at hok
          cases hires : AppendBatch vt elemB (offB j).toNat
              ((offB (j + 1) - offB j).toNat) bitems with
          | error e => rw [hires] at hok; cases hok
          | ok bitems1 =>
            rw [hires] at hok
            have := ih keyB elemB h nn offB (j + 1) (bv ++ [true])
              (boffs ++ [Int.ofNat (alen bkeys1)]) bkeys1 bitems1 r hok
            simp at this
            omega
      · rw [if_neg hc] at hok
        have := ih keyB elemB h nn offB (j + 1) (bv ++ [false])
          (boffs ++ [Int.ofNat (alen bkeys)]) bkeys bitems r hok
        simp at this
        omega
  intro N
  induction N generalizing t with
  | zero =>
    intro hn
    have := otNodes_pos t
    omega
  | succ N ih =>
    intro hn b offset len acc r hok
    cases t with
    | list et =>
      have het : otNodes et ≤ N := by simp only [otNodes] at hn; omega
      cases b <;> cases acc <;> simp only [AppendBatch] at hok <;> try cases hok
      case listB.listA h nn offB elemB bv boffs bvals =>
        have := hslots et (fun b2 o2 l2 a2 r2 => ih et het b2 o2 l2 a2 r2) len elemB
          h nn offB offset bv boffs bvals r hok
        simpa [alen] using this
    | mapT kt vt =>
      have hkt : otNodes kt ≤ N := by
        simp only [otNodes] at hn
        have := otNodes_pos vt
        omega
      have hvt : otNodes vt ≤ N := by
        simp only [otNodes] at hn
        have := otNodes_pos kt
        omega
      cases b <;> cases acc <;> simp only [AppendBatch] at hok <;> try cases hok
      case mapB.mapA h nn offB keyB elemB bv boffs bkeys bitems =>
        have := hmslots kt vt (fun b2 o2 l2 a2 r2 => ih kt hkt b2 o2 l2 a2 r2)
          (fun b2 o2 l2 a2 r2 => ih vt hvt b2 o2 l2 a2 r2) len keyB elemB
          h nn offB offset bv boffs bkeys bitems r hok
        simpa [alen] using this
    | structT fs =>
      cases b <;> cases acc <;> simp only [AppendBatch] at hok <;> try cases hok
      case structB.structA h nn fbs bv bfs =>
        simp only [bind, Except.bind] at hok
        cases hres : appendStructFields fs fbs offset len bfs with
        | error e => rw [hres] at hok; cases hok
        | ok bfs2 =>
          rw [hres] at hok
          cases hok
          simp [alen]
    | boolean =>
      cases b <;> cases acc <;> simp only [AppendBatch] at hok <;> try cases hok
      simp [alen, readOptVals]
    | byte =>
      cases b <;> cases acc <;> simp only [AppendBatch] at hok <;> try cases hok
      simp [alen, readOptVals]
    | short =>
      cases b <;> cases acc <;> simp only [AppendBatch] at hok <;> try cases hok
      simp [alen, readOptVals]
    | int =>
      cases b <;> cases acc <;> simp only [AppendBatch] at hok <;> try cases hok
      simp [alen, readOptVals]
    | long =>
      cases b <;> cases acc <;> simp only [AppendBatch] at hok <;> try cases hok
      simp [alen, readOptVals]
    | date =>
      cases b <;> cases acc <;> simp only [AppendBatch] at hok <;> try cases hok
      simp [alen, readOptVals]
    | float =>
      cases b <;> cases acc <;> simp only [AppendBatch] at hok <;> cases hok
    | double =>
      cases b <;> cases acc <;> simp only [AppendBatch] at hok <;> cases hok
    | string =>
      cases b <;> cases acc <;> simp only [AppendBatch] at hok <;> try cases hok
      simp [alen, readOptVals]
    | varchar m =>
      cases b <;> cases acc <;> simp only [AppendBatch] at hok <;> try cases hok
      simp [alen, readOptVals]
    | binary =>
      cases b <;> cases acc <;> simp only [AppendBatch] at hok <;> try cases hok
      simp [alen, readOptVals]
    | char m =>
      cases b <;> cases acc <;> simp only [AppendBatch] at hok <;> try cases hok
      simp [alen, readOptVals]
    | timestamp =>
      cases b <;> cases acc <;> simp only [AppendBatch] at hok <;> try cases hok
      simp [alen, readTsVals]
    | decimal p sc =>
      cases b <;> cases acc <;> simp only [AppendBatch] at hok <;> try cases hok
      case decimal64B.decimalA h nn vs bp bs bv =>
        by_cases hwide : appendDecimalUsesWide p = true
        · rw [if_pos hwide] at hok; cases hok
        · rw [if_neg hwide] at hok
          cases hok
          simp [alen, readOptVals]
      case decimal128B.decimalA h nn vs bp bs bv =>
        by_cases hwide : appendDecimalUsesWide p = true
        · rw [if_pos hwide] at hok
          cases hok
          simp [alen, readOptVals]
        · rw [if_neg hwide] at hok; cases hok
    | union alts =>
      cases b <;> cases acc <;> simp only [AppendBatch] at hok <;> cases hok

theorem appendListSlots_spec (et : OType) (elemB : OBatch) :
    ∀ (len : Nat) (h : Bool) (nn : Nat → Bool) (offB : Nat → Int) (j : Nat)
      (bv : List Bool) (boffs : List Int) (bvals r : AArr),
      appendListSlots et elemB h nn offB j len bv boffs bvals = .ok r →
      ∃ (boffs2 : List Int) (bvals2 : AArr),
        r = .listA (bv ++ (List.range len).map (fun k => !h || nn (j + k)))
          (boffs ++ boffs2) bvals2 ∧
        boffs2.length = len ∧
        alen bvals2 = alen bvals +
          ((List.range len).map (fun k =>
            if !h || nn (j + k) then (offB (j + k + 1) - offB (j + k)).toNat
            else 0)).sum := by
  intro len
  induction len with
  | zero =>
    intro h nn offB j bv boffs bvals r hok
    rw [appendListSlots] at hok
    cases hok
    exact ⟨[], bvals, by simp, by simp, by simp⟩
  | succ len ih =>
    intro h nn offB j bv boffs bvals r hok
    have hshiftb : (List.range (len + 1)).map (fun k => !h || nn (j + k)) =
        (!h || nn j) :: (List.range len).map (fun k => !h || nn (j + 1 + k)) :=
      range_succ_shift (fun m => !h || nn m) j len
    have hshiftw : (List.range (len + 1)).map (fun k =>
          if !h || nn (j + k) then (offB (j + k + 1) - offB (j + k)).toNat else 0) =
        (if !h || nn j then (offB (j + 1) - offB j).toNat else 0) ::
          (List.range len).map (fun k =>
            if !h || nn (j + 1 + k) then (offB (j + 1 + k + 1) - offB (j + 1 + k)).toNat
            else 0) :=
      range_succ_shift (fun m => if !h || nn m then (offB (m + 1) - offB m).toNat else 0)
        j len
    rw [appendListSlots] at hok
    by_cases hc : (!h || nn j) = true
    · rw [if_pos hc] at hok
      simp only [bind, Except.bind] at hok
      cases hres : AppendBatch et elemB (offB j).toNat
          ((offB (j + 1) - offB j).toNat) bvals with
      | error e => rw [hres] at hok; cases hok
      | ok bvals1 =>
        rw [hres] at hok
        obtain ⟨boffs2, bvals2, hr, hlen, hgrow⟩ :=
          ih h nn offB (j + 1) (bv ++ [true]) (boffs ++ [Int.ofNat (alen bvals1)])
            bvals1 r hok
        have hg1 : alen bvals1 = alen bvals + (offB (j + 1) - offB j).toNat :=
          alen_append et (otNodes et) le_rfl elemB _ _ bvals bvals1 hres
        refine ⟨Int.ofNat (alen bvals1) :: boffs2, bvals2, ?_, by simp [hlen], ?_⟩
        · rw [hr, hshiftb, hc]
          simp
        · rw [hshiftw, if_pos hc, List.sum_cons]
          omega
    · have hc' : (!h || nn j) = false := by
        simpa using hc
      rw [if_neg hc] at hok
      obtain ⟨boffs2, bvals2, hr, hlen, hgrow⟩ :=
        ih h nn offB (j + 1) (bv ++ [false]) (boffs ++ [Int.ofNat (alen bvals)])
          bvals r hok
      refine ⟨Int.ofNat (alen bvals) :: boffs2, bvals2, ?_, by simp [hlen], ?_⟩
      · rw [hr, hshiftb, hc']
        simp
      · rw [hshiftw, if_neg (by simp [hc']), List.sum_cons]
        omega

theorem appendMapSlots_spec (kt vt : OType) (keyB elemB : OBatch) :
    ∀ (len : Nat) (h : Bool) (nn : Nat → Bool) (offB : Nat → Int) (j : Nat)
      (bv : List Bool) (boffs : List Int) (bkeys bitems r : AArr),
      appendMapSlots kt vt keyB elemB h nn offB j len bv boffs bkeys bitems = .ok r →
      ∃ (boffs2 : List Int) (bkeys2 bitems2 : AArr),
        r = .mapA (bv ++ (List.range len).map (fun k => !h || nn (j + k)))
          (boffs ++ boffs2) bkeys2 bitems2 ∧
        boffs2.length = len ∧
        alen bkeys2 = alen bkeys +
          ((List.range len).map (fun k =>
            if !h || nn (j + k) then (offB (j + k + 1) - offB (j + k)).toNat
            else 0)).sum ∧
        alen bitems2 = alen bitems +
          ((List.range len).map (fun k =>
            if !h || nn (j + k) then (offB (j + k + 1) - offB (j + k)).toNat
            else 0)).sum := by
  intro len
  induction len with
  | zero =>
    intro h nn offB j bv boffs bkeys bitems r hok
    rw [appendMapSlots] at hok
    cases hok
    exact ⟨[], bkeys, bitems, by simp, by simp, by simp, by simp⟩
  | succ len ih =>
    intro h nn offB j bv boffs bkeys bitems r hok
    have hshiftb : (List.range (len + 1)).map (fun k => !h || nn (j + k)) =
        (!h || nn j) :: (List.range len).map (fun k => !h || nn (j + 1 + k)) :=
      range_succ_shift (fun m => !h || nn m) j len
    have hshiftw : (List.range (len + 1)).map (fun k =>
          if !h || nn (j + k) then (offB (j + k + 1) - offB (j + k)).toNat else 0) =
        (if !h || nn j then (offB (j + 1) - offB j).toNat else 0) ::
          (List.range len).map (fun k =>
            if !h || nn (j + 1 + k) then (offB (j + 1 + k + 1) - offB (j + 1 + k)).toNat
            else 0) :=
      range_succ_shift (fun m => if !h || nn m then (offB (m + 1) - offB m).toNat else 0)
        j len
    rw [appendMapSlots] at hok
    by_cases hc : (!h || nn j) = true
    · rw [if_pos hc] at hok
      simp only [bind, Except.bind] at hok
      cases hkres : AppendBatch kt keyB (offB j).toNat
          ((offB (j + 1) - offB j).toNat) bkeys with
      | error e => rw [hkres] at hok; cases hok
      | ok bkeys1 =>
        rw [hkres] at hok
        cases hires : AppendBatch vt elemB (offB j).toNat
            ((offB (j + 1) - offB j).toNat) bitems with
        | error e => rw [hires] at hok; cases hok
        | ok bitems1 =>
          rw [hires] at hok
          obtain ⟨boffs2, bkeys2, bitems2, hr, hlen, hgk, hgi⟩ :=
            ih h nn offB (j + 1) (bv ++ [true]) (boffs ++ [Int.ofNat (alen bkeys1)])
              bkeys1 bitems1 r hok
          have hg1 : alen bkeys1 = alen bkeys + (offB (j + 1) - offB j).toNat :=
            alen_append kt (otNodes kt) le_rfl keyB _ _ bkeys bkeys1 hkres
          have hg2 : alen bitems1 = alen bitems + (offB (j + 1) - offB j).toNat :=
            alen_append vt (otNodes vt) le_rfl elemB _ _ bitems bitems1 hires
          refine ⟨Int.ofNat (alen bkeys1) :: boffs2, bkeys2, bitems2, ?_,
            by simp [hlen], ?_, ?_⟩
          · rw [hr, hshiftb, hc]
            simp
          · rw [hshiftw, if_pos hc, List.sum_cons]
            omega
          · rw [hshiftw, if_pos hc, List.sum_cons]
            omega
    · have hc' : (!h || nn j) = false := by
        simpa using hc
      rw [if_neg hc] at hok
      obtain ⟨boffs2, bkeys2, bitems2, hr, hlen, hgk, hgi⟩ :=
        ih h nn offB (j + 1) (bv ++ [false]) (boffs ++ [Int.ofNat (alen bkeys)])
          bkeys bitems r hok
      refine ⟨Int.ofNat (alen bkeys) :: boffs2, bkeys2, bitems2, ?_,
        by simp [hlen], ?_, ?_⟩
      · rw [hr, hshiftb, hc']
        simp
      · rw [hshiftw, if_neg (by simp [hc']), List.sum_cons]
        omega
      · rw [hshiftw, if_neg (by simp [hc']), List.sum_cons]
        omega

/-- C7: for a list or map decode over positions `[offset, offset + len)`,
exactly one container slot is appended per position (so `len` new validity
bits and `len` new offsets entries), a slot is valid exactly when the
batch position is (`!hasNulls || notNull`), the child builder grows by
exactly `offsets[i+1] - offsets[i]` elements at each valid position and by
nothing at a null position, and stepwise a valid position recurses into
the child batch over `[offsets[i], offsets[i+1])` while a null position
appends a null slot and performs no child append (the child builder is
passed through untouched). -/
theorem c7_container_slot_discipline :
    (∀ (et : OType) (elemB : OBatch) (h : Bool) (nn : Nat → Bool) (offB : Nat → Int)
       (offset len : Nat) (bv : List Bool) (boffs : List Int) (bvals r : AArr),
      AppendBatch (.list et) (.listB h nn offB elemB) offset len
          (.listA bv boffs bvals) = .ok r →
      ∃ (boffs2 : List Int) (bvals2 : AArr),
        r = .listA (bv ++ (List.range len).map (fun k => !h || nn (offset + k)))
          (boffs ++ boffs2) bvals2 ∧
        boffs2.length = len ∧
        alen bvals2 = alen bvals +
          ((List.range len).map (fun k =>
            if !h || nn (offset + k)
            then (offB (offset + k + 1) - offB (offset + k)).toNat else 0)).sum) ∧
    (∀ (kt vt : OType) (keyB elemB : OBatch) (h : Bool) (nn : Nat → Bool)
       (offB : Nat → Int) (offset len : Nat) (bv : List Bool) (boffs : List Int)
       (bkeys bitems r : AArr),
      AppendBatch (.mapT kt vt) (.mapB h nn offB keyB elemB) offset len
          (.mapA bv boffs bkeys bitems) = .ok r →
      ∃ (boffs2 : List Int) (bkeys2 bitems2 : AArr),
        r = .mapA (bv ++ (List.range len).map (fun k => !h || nn (offset + k)))
          (boffs ++ boffs2) bkeys2 bitems2 ∧
        boffs2.length = len ∧
        alen bkeys2 = alen bkeys +
          ((List.range len).map (fun k =>
            if !h || nn (offset + k)
            then (offB (offset + k + 1) - offB (offset + k)).toNat else 0)).sum ∧
        alen bitems2 = alen bitems +
          ((List.range len).map (fun k =>
            if !h || nn (offset + k)
            then (offB (offset + k + 1) - offB (offset + k)).toNat else 0)).sum) ∧
    (∀ (et : OType) (elemB : OBatch) (h : Bool) (nn : Nat → Bool) (offB : Nat → Int)
       (offset len : Nat) (bv : List Bool) (boffs : List Int) (bvals : AArr),
      (!h || nn offset) = false →
      AppendBatch (.list et) (.listB h nn offB elemB) offset (len + 1)
          (.listA bv boffs bvals) =
        AppendBatch (.list et) (.listB h nn offB elemB) (offset + 1) len
          (.listA (bv ++ [false]) (boffs ++ [Int.ofNat (alen bvals)]) bvals)) ∧
    (∀ (kt vt : OType) (keyB elemB : OBatch) (h : Bool) (nn : Nat → Bool)
       (offB : Nat → Int) (offset len : Nat) (bv : List Bool) (boffs : List Int)
       (bkeys bitems : AArr),
      (!h || nn offset) = false →
      AppendBatch (.mapT kt vt) (.mapB h nn offB keyB elemB) offset (len + 1)
          (.mapA bv boffs bkeys bitems) =
        AppendBatch (.mapT kt vt) (.mapB h nn offB keyB elemB) (offset + 1) len
          (.mapA (bv ++ [false]) (boffs ++ [Int.ofNat (alen bkeys)]) bkeys bitems)) ∧
    (∀ (et : OType) (elemB : OBatch) (h : Bool) (nn : Nat → Bool) (offB : Nat → Int)
       (offset len : Nat) (bv : List Bool) (boffs : List Int) (bvals : AArr),
      (!h || nn offset) = true →
      AppendBatch (.list et) (.listB h nn offB elemB) offset (len + 1)
          (.listA bv boffs bvals) =
        Except.bind
          (AppendBatch et elemB (offB offset).toNat
            ((offB (offset + 1) - offB offset).toNat) bvals)
          (fun bvals2 =>
            AppendBatch (.list et) (.listB h nn offB elemB) (offset + 1) len
              (.listA (bv ++ [true]) (boffs ++ [Int.ofNat (alen bvals2)]) bvals2))) ∧
    (∀ (kt vt : OType) (keyB elemB : OBatch) (h : Bool) (nn : Nat → Bool)
       (offB : Nat → Int) (offset len : Nat) (bv : List Bool) (boffs : List Int)
       (bkeys bitems : AArr),
      (!h || nn offset) = true →
      AppendBatch (.mapT kt vt) (.mapB h nn offB keyB elemB) offset (len + 1)
          (.mapA bv boffs bkeys bitems) =
        Except.bind
          (AppendBatch kt keyB (offB offset).toNat
            ((offB (offset + 1) - offB offset).toNat) bkeys)
          (fun bkeys2 =>
            Except.bind
              (AppendBatch vt elemB (offB offset).toNat
                ((offB (offset + 1) - offB offset).toNat) bitems)
              (fun bitems2 =>
                AppendBatch (.mapT kt vt) (.mapB h nn offB keyB elemB) (offset + 1) len
                  (.mapA (bv ++ [true]) (boffs ++ [Int.ofNat (alen bkeys2)])
                    bkeys2 bitems2)))) := by
  refine ⟨?_, ?_, ?_, ?_, ?_, ?_⟩
  · intro et elemB h nn offB offset len bv boffs bvals r hok
    simp only [AppendBatch] at hok
    exact appendListSlots_spec et elemB len h nn offB offset bv boffs bvals r hok
  · intro kt vt keyB elemB h nn offB offset len bv boffs bkeys bitems r hok
    simp only [AppendBatch] at hok
    exact appendMapSlots_spec kt vt keyB elemB len h nn offB offset bv boffs
      bkeys bitems r hok
  · intro et elemB h nn offB offset len bv boffs bvals hc
    have hcond : ¬((!h || nn offset) = true) := by simp [hc]
    simp only [AppendBatch]
    rw [appendListSlots, if_neg hcond]
  · intro kt vt keyB elemB h nn offB offset len bv boffs bkeys bitems hc
    have hcond : ¬((!h || nn offset) = true) := by simp [hc]
    simp only [AppendBatch]
    rw [appendMapSlots, if_neg hcond]
  · intro et elemB h nn offB offset len bv boffs bvals hc
    simp only [AppendBatch]
    rw [appendListSlots, if_pos hc]
    rfl
  · intro kt vt keyB elemB h nn offB offset len bv boffs bkeys bitems hc
    simp only [AppendBatch]
    rw [appendMapSlots, if_pos hc]
    rfl

/-- C7 witness: a 3-slot list decode (valid, null, valid) with element
ranges `[0, 2)` and `[4, 6)`: three slots are appended, the null slot
contributes no child elements, and the child builder grows by 4. -/
theorem c7_container_slot_discipline_witness :
    ∃ (boffs2 : List Int) (bvals2 : AArr),
      (AArr.listA [true, false, true] [2, 2, 4]
          (.int64A [some 0, some 1, some 4, some 5])) =
        .listA [true, false, true] boffs2 bvals2 ∧
      boffs2.length = 3 ∧ alen bvals2 = 4 := by
  have hok : AppendBatch (.list .long)
      (.listB true (fun i => !(i == 1)) (fun i => 2 * (i : Int))
        (.longB false (fun _ => true) (fun i => (i : Int)))) 0 3
      (.listA [] [] (.int64A [])) =
      .ok (.listA [true, false, true] [2, 2, 4]
        (.int64A [some 0, some 1, some 4, some 5])) := by
    simp +decide [AppendBatch, appendListSlots, readOptVals, alen,
      bind, Except.bind, List.range_succ]
  exact c7_container_slot_discipline.1 .long
    (.longB false (fun _ => true) (fun i => (i : Int))) true
    (fun i => !(i == 1)) (fun i => 2 * (i : Int)) 0 3 [] [] (.int64A []) _ hok

theorem bind_ok {ε α β : Type} (x : Except ε α) (f : α → Except ε β) (b : β)
    (h : bind x f = .ok b) : ∃ a, x = .ok a ∧ f a = .ok b := by
  cases x with
  | error e =>
    simp only [bind, Except.bind] at h
    cases h
  | ok a => exact ⟨a, rfl, by simpa only [bind, Except.bind] using h⟩

theorem svals_length {γ : Type} (start len : Nat) (xs : List γ)
    (h : start + len ≤ xs.length) : (svals start len xs).length = len := by
  simp [svals]
  omega

theorem svals_getD {γ : Type} (start len : Nat) (xs : List γ) (d : γ) (k : Nat)
    (hk : k < len) (h : start + len ≤ xs.length) :
    (svals start len xs).getD k d = xs.getD (start + k) d := by
  have h1 : k < (svals start len xs).length := by
    rw [svals_length start len xs h]
    exact hk
  have h2 : start + k < xs.length := by omega
  rw [List.getD_eq_getElem _ _ h1, List.getD_eq_getElem _ _ h2]
  simp only [svals]
  rw [List.getElem_take, List.getElem_drop]

theorem writeListSlots_facts (values : AArr) (offs : List Int) :
    ∀ (sl : List Bool) (i j : Nat) (nn : Nat → Bool) (offB : Nat → Int)
      (elemB : OBatch) (r : (Nat → Bool) × (Nat → Int) × OBatch),
      writeListSlots values offs sl i j nn offB elemB = .ok r →
      (∀ m, m < j → r.1 m = nn m) ∧
      (∀ m, m ≤ j → r.2.1 m = offB m) ∧
      (∀ k, k < sl.length → r.1 (j + k) = sl.getD k false) ∧
      (∀ k, k < sl.length →
        r.2.1 (j + k + 1) = r.2.1 (j + k) +
          (if sl.getD k false then offs.getD (i + k + 1) 0 - offs.getD (i + k) 0
           else 0)) := by
  intro sl
  induction sl with
  | nil =>
    intro i j nn offB elemB r hok
    rw [writeListSlots] at hok
    cases hok
    exact ⟨fun m _ => rfl, fun m _ => rfl, fun k hk => by simp at hk,
      fun k hk => by simp at hk⟩
  | cons valid rest ih =>
    intro i j nn offB elemB r hok
    rw [writeListSlots] at hok
    cases valid with
    | false =>
      rw [if_neg (by simp)] at hok
      obtain ⟨hn, hf, hbit, hent⟩ :=
        ih (i + 1) (j + 1) (updB nn j false) (updB offB (j + 1) (offB j)) elemB r hok
      refine ⟨?_, ?_, ?_, ?_⟩
      · intro m hm
        rw [hn m (by omega)]
        simp only [updB]
        rw [if_neg (by omega : ¬ m = j)]
      · intro m hm
        rw [hf m (by omega)]
        simp only [updB]
        rw [if_neg (by omega : ¬ m = j + 1)]
      · intro k hk
        cases k with
        | zero =>
          rw [Nat.add_zero, hn j (by omega)]
          simp [updB]
        | succ k2 =>
          have he : j + (k2 + 1) = j + 1 + k2 := by omega
          rw [he, hbit k2 (by simpa using hk)]
          simp
      · intro k hk
        cases k with
        | zero =>
          simp only [Nat.add_zero]
          rw [hf (j + 1) (by omega), hf j (by omega)]
          simp [updB]
        | succ k2 =>
          have he : j + (k2 + 1) = j + 1 + k2 := by omega
          have he2 : i + (k2 + 1) = i + 1 + k2 := by omega
          rw [he, he2, hent k2 (by simpa using hk)]
          simp
    | true =>
      rw [if_pos rfl] at hok
      obtain ⟨elemB2, hwr, hok2⟩ := bind_ok _ _ _ hok
      obtain ⟨hn, hf, hbit, hent⟩ :=
        ih (i + 1) (j + 1) (updB nn j true)
          (updB offB (j + 1) (offB j + (offs.getD (i + 1) 0 - offs.getD i 0)))
          elemB2 r hok2
      refine ⟨?_, ?_, ?_, ?_⟩
      · intro m hm
        rw [hn m (by omega)]
        simp only [updB]
        rw [if_neg (by omega : ¬ m = j)]
      · intro m hm
        rw [hf m (by omega)]
        simp only [updB]
        rw [if_neg (by omega : ¬ m = j + 1)]
      · intro k hk
        cases k with
        | zero =>
          rw [Nat.add_zero, hn j (by omega)]
          simp [updB]
        | succ k2 =>
          have he : j + (k2 + 1) = j + 1 + k2 := by omega
          rw [he, hbit k2 (by simpa using hk)]
          simp
      · intro k hk
        cases k with
        | zero =>
          simp only [Nat.add_zero]
          rw [hf (j + 1) (by omega), hf j (by omega)]
          simp [updB]
        | succ k2 =>
          have he : j + (k2 + 1) = j + 1 + k2 := by omega
          have he2 : i + (k2 + 1) = i + 1 + k2 := by omega
          rw [he, he2, hent k2 (by simpa using hk)]
          simp

theorem writeMapSlots_facts (keys items : AArr) (offs : List Int) :
    ∀ (sl : List Bool) (i j : Nat) (nn : Nat → Bool) (offB : Nat → Int)
      (keyB elemB : OBatch) (r : (Nat → Bool) × (Nat → Int) × OBatch × OBatch),
      writeMapSlots keys items offs sl i j nn offB keyB elemB = .ok r →
      (∀ m, m < j → r.1 m = nn m) ∧
      (∀ m, m ≤ j → r.2.1 m = offB m) ∧
      (∀ k, k < sl.length → r.1 (j + k) = sl.getD k false) ∧
      (∀ k, k < sl.length →
        r.2.1 (j + k + 1) = r.2.1 (j + k) +
          (if sl.getD k false then offs.getD (i + k + 1) 0 - offs.getD (i + k) 0
           else 0)) := by
  intro sl
  induction sl with
  | nil =>
    intro i j nn offB keyB elemB r hok
    rw [writeMapSlots] at hok
    cases hok
    exact ⟨fun m _ => rfl, fun m _ => rfl, fun k hk => by simp at hk,
      fun k hk => by simp at hk⟩
  | cons valid rest ih =>
    intro i j nn offB keyB elemB r hok
    rw [writeMapSlots] at hok
    cases valid with
    | false =>
      rw [if_neg (by simp)] at hok
      obtain ⟨hn, hf, hbit, hent⟩ :=
        ih (i + 1) (j + 1) (updB nn j false) (updB offB (j + 1) (offB j)) keyB elemB
          r hok
      refine ⟨?_, ?_, ?_, ?_⟩
      · intro m hm
        rw [hn m (by omega)]
        simp only [updB]
        rw [if_neg (by omega : ¬ m = j)]
      · intro m hm
        rw [hf m (by omega)]
        simp only [updB]
        rw [if_neg (by omega : ¬ m = j + 1)]
      · intro k hk
        cases k with
        | zero =>
          rw [Nat.add_zero, hn j (by omega)]
          simp [updB]
        | succ k2 =>
          have he : j + (k2 + 1) = j + 1 + k2 := by omega
          rw [he, hbit k2 (by simpa using hk)]
          simp
      · intro k hk
        cases k with
        | zero =>
          simp only [Nat.add_zero]
          rw [hf (j + 1) (by omega), hf j (by omega)]
          simp [updB]
        | succ k2 =>
          have he : j + (k2 + 1) = j + 1 + k2 := by omega
          have he2 : i + (k2 + 1) = i + 1 + k2 := by omega
          rw [he, he2, hent k2 (by simpa using hk)]
          simp
    | true =>
      rw [if_pos rfl] at hok
      obtain ⟨keyB2, hwrk, hok2⟩ := bind_ok _ _ _ hok
      obtain ⟨elemB2, hwri, hok3⟩ := bind_ok _ _ _ hok2
      obtain ⟨hn, hf, hbit, hent⟩ :=
        ih (i + 1) (j + 1) (updB nn j true)
          (updB offB (j + 1) (offB j + (offs.getD (i + 1) 0 - offs.getD i 0)))
          keyB2 elemB2 r hok3
      refine ⟨?_, ?_, ?_, ?_⟩
      · intro m hm
        rw [hn m (by omega)]
        simp only [updB]
        rw [if_neg (by omega : ¬ m = j)]
      · intro m hm
        rw [hf m (by omega)]
        simp only [updB]
        rw [if_neg (by omega : ¬ m = j + 1)]
      · intro k hk
        cases k with
        | zero =>
          rw [Nat.add_zero, hn j (by omega)]
          simp [updB]
        | succ k2 =>
          have he : j + (k2 + 1) = j + 1 + k2 := by omega
          rw [he, hbit k2 (by simpa using hk)]
          simp
      · intro k hk
        cases k with
        | zero =>
          simp only [Nat.add_zero]
          rw [hf (j + 1) (by omega), hf j (by omega)]
          simp [updB]
        | succ k2 =>
          have he : j + (k2 + 1) = j + 1 + k2 := by omega
          have he2 : i + (k2 + 1) = i + 1 + k2 := by omega
          rw [he, he2, hent k2 (by simpa using hk)]
          simp

/-- C8: after a list or map write into a destination batch that succeeds,
the batch's child offsets buffer satisfies: `offsets[0] = 0` when the
write starts at destination offset 0 (the first element ever written into
the batch), the offsets are non-decreasing across the written range, and
a null position repeats the previous offset (contributes a zero-length
child range). -/
theorem c8_offsets_monotone :
    (∀ (v : List Bool) (offs : List Int) (values : AArr) (aOff len o : Nat)
       (h : Bool) (nn : Nat → Bool) (offB : Nat → Int) (elemB : OBatch),
      wfB (.listA v offs values) = true → aOff + len ≤ v.length →
      (WriteBatchArr (.listA v offs values) aOff len o
        (.listB h nn offB elemB)).isOk = true →
      ∃ (h2 : Bool) (nn2 : Nat → Bool) (offB2 : Nat → Int) (elemB2 : OBatch),
        WriteBatchArr (.listA v offs values) aOff len o (.listB h nn offB elemB) =
          .ok (.listB h2 nn2 offB2 elemB2) ∧
        (o = 0 → offB2 0 = 0) ∧
        (∀ k, k < len → offB2 (o + k) ≤ offB2 (o + k + 1)) ∧
        (∀ k, k < len → isNullAt (.listA v offs values) (aOff + k) = true →
          offB2 (o + k + 1) = offB2 (o + k))) ∧
    (∀ (v : List Bool) (offs : List Int) (keys items : AArr) (aOff len o : Nat)
       (h : Bool) (nn : Nat → Bool) (offB : Nat → Int) (keyB elemB : OBatch),
      wfB (.mapA v offs keys items) = true → aOff + len ≤ v.length →
      (WriteBatchArr (.mapA v offs keys items) aOff len o
        (.mapB h nn offB keyB elemB)).isOk = true →
      ∃ (h2 : Bool) (nn2 : Nat → Bool) (offB2 : Nat → Int) (keyB2 elemB2 : OBatch),
        WriteBatchArr (.mapA v offs keys items) aOff len o
            (.mapB h nn offB keyB elemB) =
          .ok (.mapB h2 nn2 offB2 keyB2 elemB2) ∧
        (o = 0 → offB2 0 = 0) ∧
        (∀ k, k < len → offB2 (o + k) ≤ offB2 (o + k + 1)) ∧
        (∀ k, k < len → isNullAt (.mapA v offs keys items) (aOff + k) = true →
          offB2 (o + k + 1) = offB2 (o + k))) := by
  constructor
  · intro v offs values aOff len o h nn offB elemB hwf hbound hok
    cases hrun : WriteBatchArr (.listA v offs values) aOff len o
        (.listB h nn offB elemB) with
    | error e =>
      rw [hrun] at hok
      simp [Except.isOk, Except.toBool] at hok
    | ok b' =>
      simp only [WriteBatchArr] at hrun
      obtain ⟨r, hsl, hout⟩ := bind_ok _ _ _ hrun
      cases hout
      obtain ⟨hnf, hff, hbit, hent⟩ :=
        writeListSlots_facts values offs (svals aOff len v) aOff o nn
          (if o = 0 then updB offB 0 0 else offB) elemB r hsl
      simp only [wfB, Bool.and_eq_true, beq_iff_eq, decide_eq_true_eq] at hwf
      obtain ⟨⟨⟨hlen, hchain⟩, hoff0⟩, hwfv⟩ := hwf
      have hsll : (svals aOff len v).length = len := svals_length aOff len v hbound
      refine ⟨_, r.1, r.2.1, r.2.2, rfl, ?_, ?_, ?_⟩
      · intro h0
        rw [hff 0 (by omega)]
        simp [h0, updB]
      · intro k hk
        have hk2 : k < (svals aOff len v).length := by omega
        rw [hent k hk2]
        by_cases hvk : (svals aOff len v).getD k false = true
        · rw [if_pos hvk]
          have hik : aOff + k + 1 < offs.length := by omega
          have hmono : offs.getD (aOff + k) 0 ≤ offs.getD (aOff + k + 1) 0 := by
            have hc := List.chain'_iff_get.mp hchain (aOff + k) (by omega)
            rw [List.getD_eq_getElem _ _ (by omega), List.getD_eq_getElem _ _ hik]
            simpa using hc
          omega
        · rw [if_neg hvk]
          omega
      · intro k hk hnull
        have hk2 : k < (svals aOff len v).length := by omega
        have hin : aOff + k < v.length := by omega
        have h1 : (svals aOff len v).getD k false = v.getD (aOff + k) false :=
          svals_getD aOff len v false k hk hbound
        have h2 : v.getD (aOff + k) false = false := by
          simp only [isNullAt, topValidity, Bool.not_eq_true'] at hnull
          rw [List.getD_eq_getElem _ _ hin]
          rw [List.getD_eq_getElem _ _ hin] at hnull
          exact hnull
        rw [hent k hk2, h1, h2]
        simp
  · intro v offs keys items aOff len o h nn offB keyB elemB hwf hbound hok
    cases hrun : WriteBatchArr (.mapA v offs keys items) aOff len o
        (.mapB h nn offB keyB elemB) with
    | error e =>
      rw [hrun] at hok
      simp [Except.isOk, Except.toBool] at hok
    | ok b' =>
      simp only [WriteBatchArr] at hrun
      obtain ⟨r, hsl, hout⟩ := bind_ok _ _ _ hrun
      cases hout
      obtain ⟨hnf, hff, hbit, hent⟩ :=
        writeMapSlots_facts keys items offs (svals aOff len v) aOff o nn
          (if o = 0 then updB offB 0 0 else offB) keyB elemB r hsl
      simp only [wfB, Bool.and_eq_true, beq_iff_eq, decide_eq_true_eq] at hwf
      obtain ⟨⟨⟨⟨hlen, hchain⟩, hoff0⟩, hwfk⟩, hwfi⟩ := hwf
      have hsll : (svals aOff len v).length = len := svals_length aOff len v hbound
      refine ⟨_, r.1, r.2.1, r.2.2.1, r.2.2.2, rfl, ?_, ?_, ?_⟩
      · intro h0
        rw [hff 0 (by omega)]
        simp [h0, updB]
      · intro k hk
        have hk2 : k < (svals aOff len v).length := by omega
        rw [hent k hk2]
        by_cases hvk : (svals aOff len v).getD k false = true
        · rw [if_pos hvk]
          have hik : aOff + k + 1 < offs.length := by omega
          have hmono : offs.getD (aOff + k) 0 ≤ offs.getD (aOff + k + 1) 0 := by
            have hc := List.chain'_iff_get.mp hchain (aOff + k) (by omega)
            rw [List.getD_eq_getElem _ _ (by omega), List.getD_eq_getElem _ _ hik]
            simpa using hc
          omega
        · rw [if_neg hvk]
          omega
      · intro k hk hnull
        have hk2 : k < (svals aOff len v).length := by omega
        have hin : aOff + k < v.length := by omega
        have h1 : (svals aOff len v).getD k false = v.getD (aOff + k) false :=
          svals_getD aOff len v false k hk hbound
        have h2 : v.getD (aOff + k) false = false := by
          simp only [isNullAt, topValidity, Bool.not_eq_true'] at hnull
          rw [List.getD_eq_getElem _ _ hin]
          rw [List.getD_eq_getElem _ _ hin] at hnull
          exact hnull
        rw [hent k hk2, h1, h2]
        simp

/-- C8 witness: a 3-slot list write (valid, null, valid) with Arrow
offsets `[0, 2, 2, 5]` into a fresh batch at destination offset 0: the
write succeeds and the resulting ORC offsets start at 0, are
non-decreasing over the 3 written slots, and repeat across the null
slot. -/
theorem c8_offsets_monotone_witness :
    ∃ (h2 : Bool) (nn2 : Nat → Bool) (offB2 : Nat → Int) (elemB2 : OBatch),
      WriteBatchArr (.listA [true, false, true] [0, 2, 2, 5]
          (.int64A [some 10, some 11, some 12, some 13, some 14])) 0 3 0
          (.listB false (fun _ => true) (fun _ => 0)
            (.longB false (fun _ => true) (fun _ => 0))) =
        .ok (.listB h2 nn2 offB2 elemB2) ∧
      (0 = 0 → offB2 0 = 0) ∧
      (∀ k, k < 3 → offB2 (0 + k) ≤ offB2 (0 + k + 1)) ∧
      (∀ k, k < 3 → isNullAt (.listA [true, false, true] [0, 2, 2, 5]
          (.int64A [some 10, some 11, some 12, some 13, some 14])) (0 + k) = true →
        offB2 (0 + k + 1) = offB2 (0 + k)) := by
  refine c8_offsets_monotone.1 [true, false, true] [0, 2, 2, 5]
    (.int64A [some 10, some 11, some 12, some 13, some 14]) 0 3 0 false
    (fun _ => true) (fun _ => 0) (.longB false (fun _ => true) (fun _ => 0))
    (by simp +decide [wfB, wfFieldsB]) (by decide) ?_
  simp +decide [WriteBatchArr, writeListSlots, writeOptVals, svals, updB,
    bind, Except.bind, Except.isOk]

theorem alen_normalize (a : AArr) : alen (NormalizeArray a) = alen a := by
  cases a <;>
    first
      | (simp only [NormalizeArray]; split <;> rfl)
      | simp [NormalizeArray, alen]

theorem takeSum_succ (chunks : List AArr) (k : Nat) (hk : k < chunks.length) :
    ((chunks.take (k + 1)).map alen).sum =
      ((chunks.take k).map alen).sum + alen (chunks.getD k (.int64A [])) := by
  rw [List.take_succ, List.map_append, List.sum_append, List.getElem?_eq_getElem hk]
  rw [List.getD_eq_getElem _ _ hk]
  simp

theorem chunksLen_split (chunks : List AArr) (k : Nat) :
    chunksLen chunks =
      ((chunks.take k).map alen).sum + ((chunks.drop k).map alen).sum := by
  conv_lhs => rw [chunksLen, ← List.take_append_drop k chunks]
  rw [List.map_append, List.sum_append]

theorem dropSum_lb (chunks : List AArr) (k : Nat) (hk : k < chunks.length) :
    alen (chunks.getD k (.int64A [])) ≤ ((chunks.drop k).map alen).sum := by
  rw [List.drop_eq_getElem_cons hk, List.getD_eq_getElem _ _ hk]
  simp only [List.map_cons, List.sum_cons]
  exact Nat.le_add_right _ _

theorem writeChunkedLoop_spec :
    ∀ (fuel : Nat) (chunks : List AArr) (length idx chunkOff orcOff : Nat)
      (b : OBatch) (r : ChunkedResult),
      chunks.length - chunkOff ≤ fuel →
      chunkOff ≤ chunks.length →
      idx ≤ alen (chunks.getD chunkOff (.int64A [])) →
      writeChunkedLoop chunks length idx chunkOff orcOff b = .ok r →
      r.numElements = orcOff + min (length - orcOff)
        (chunksLen chunks - cursorConsumed chunks idx chunkOff) ∧
      r.arrowChunkOffset ≤ chunks.length ∧
      r.arrowIndexOffset ≤ alen (chunks.getD r.arrowChunkOffset (.int64A [])) ∧
      cursorConsumed chunks r.arrowIndexOffset r.arrowChunkOffset =
        cursorConsumed chunks idx chunkOff +
          min (length - orcOff)
            (chunksLen chunks - cursorConsumed chunks idx chunkOff) := by
  intro fuel
  induction fuel with
  | zero =>
    intro chunks length idx chunkOff orcOff b r hfuel hco hidx hok
    have hce : chunkOff = chunks.length := by omega
    rw [writeChunkedLoop, dif_neg (by omega)] at hok
    cases hok
    have hTfull : ((chunks.take chunkOff).map alen).sum = chunksLen chunks := by
      rw [hce, List.take_length]
      rfl
    have hA0 : alen (chunks.getD chunkOff (.int64A [])) = 0 := by
      rw [List.getD_eq_getElem?_getD, List.getElem?_eq_none (by omega)]
      rfl
    simp only [cursorConsumed] at *
    refine ⟨by omega, by omega, by omega, by omega⟩
  | succ fuel ih =>
    intro chunks length idx chunkOff orcOff b r hfuel hco hidx hok
    rw [writeChunkedLoop] at hok
    by_cases hc : chunkOff < chunks.length ∧ orcOff < length
    · rw [dif_pos hc] at hok
      simp only [alen_normalize] at hok
      have htk := takeSum_succ chunks chunkOff hc.1
      have hsp := chunksLen_split chunks chunkOff
      have hdl := dropSum_lb chunks chunkOff hc.1
      have hsp2 := chunksLen_split chunks (chunkOff + 1)
      have hmain : ∀ bX : OBatch,
          (if orcOff + min (length - orcOff)
              (alen (chunks.getD chunkOff (.int64A [])) - idx) < length then
            writeChunkedLoop chunks length 0 (chunkOff + 1)
              (orcOff + min (length - orcOff)
                (alen (chunks.getD chunkOff (.int64A [])) - idx)) bX
          else
            .ok ⟨bX,
              orcOff + min (length - orcOff)
                (alen (chunks.getD chunkOff (.int64A [])) - idx),
              idx + min (length - orcOff)
                (alen (chunks.getD chunkOff (.int64A [])) - idx),
              chunkOff⟩) = .ok r →
          r.numElements = orcOff + min (length - orcOff)
            (chunksLen chunks - cursorConsumed chunks idx chunkOff) ∧
          r.arrowChunkOffset ≤ chunks.length ∧
          r.arrowIndexOffset ≤ alen (chunks.getD r.arrowChunkOffset (.int64A [])) ∧
          cursorConsumed chunks r.arrowIndexOffset r.arrowChunkOffset =
            cursorConsumed chunks idx chunkOff +
              min (length - orcOff)
                (chunksLen chunks - cursorConsumed chunks idx chunkOff) := by
        intro bX hrest
        by_cases hcont :
            orcOff + min (length - orcOff)
              (alen (chunks.getD chunkOff (.int64A [])) - idx) < length
        · rw [if_pos hcont] at hrest
          obtain ⟨h1, h2, h3, h4⟩ := ih chunks length 0 (chunkOff + 1)
            (orcOff + min (length - orcOff)
              (alen (chunks.getD chunkOff (.int64A [])) - idx)) bX r
            (by omega) (by omega) (Nat.zero_le _) hrest
          simp only [cursorConsumed] at *
          refine ⟨by omega, h2, h3, by omega⟩
        · rw [if_neg hcont] at hrest
          cases hrest
          simp only [cursorConsumed] at *
          refine ⟨by omega, by omega, by omega, by omega⟩
      by_cases hn : 0 < min (length - orcOff)
          (alen (chunks.getD chunkOff (.int64A [])) - idx)
      · rw [if_pos hn] at hok
        obtain ⟨b2, hwr, hrest⟩ := bind_ok _ _ _ hok
        exact hmain b2 hrest
      · rw [if_neg hn] at hok
        exact hmain b hok
    · rw [dif_neg hc] at hok
      cases hok
      by_cases hcl : chunkOff < chunks.length
      · have hol : ¬ orcOff < length := by
          intro hx
          exact hc ⟨hcl, hx⟩
        simp only [cursorConsumed] at *
        refine ⟨by omega, by omega, by omega, by omega⟩
      · have hce : chunkOff = chunks.length := by omega
        have hTfull : ((chunks.take chunkOff).map alen).sum = chunksLen chunks := by
          rw [hce, List.take_length]
          rfl
        have hA0 : alen (chunks.getD chunkOff (.int64A [])) = 0 := by
          rw [List.getD_eq_getElem?_getD, List.getElem?_eq_none (by omega)]
          rfl
        simp only [cursorConsumed] at *
        refine ⟨by omega, by omega, by omega, by omega⟩

theorem writeTableLoop_spec (numRows : Nat) :
    ∀ (chunks : List AArr) (c1 idx chunkOff : Nat) (b : OBatch) (nes : List Nat),
      chunkOff ≤ chunks.length →
      idx ≤ alen (chunks.getD chunkOff (.int64A [])) →
      chunksLen chunks - cursorConsumed chunks idx chunkOff = numRows →
      writeTableLoop chunks c1 numRows idx chunkOff b = .ok nes →
      nes.length = (numRows + c1) / (c1 + 1) ∧ nes.sum = numRows := by
  induction numRows using Nat.strong_induction_on with
  | _ numRows ihs =>
    intro chunks c1 idx chunkOff b nes hco hidx hinv hok
    rw [writeTableLoop] at hok
    by_cases hpos : 0 < numRows
    · rw [if_pos hpos] at hok
      obtain ⟨rr, hchk, hrest⟩ := bind_ok _ _ _ hok
      obtain ⟨nes2, hloop, hcons⟩ := bind_ok _ _ _ hrest
      cases hcons
      simp only [WriteBatchChunked] at hchk
      obtain ⟨h1, h2, h3, h4⟩ := writeChunkedLoop_spec chunks.length chunks (c1 + 1)
        idx chunkOff 0 b rr (by omega) hco hidx hchk
      have hcons_le : cursorConsumed chunks idx chunkOff ≤ chunksLen chunks := by
        omega
      obtain ⟨hlen2, hsum2⟩ := ihs (numRows - (c1 + 1)) (by omega) chunks c1
        rr.arrowIndexOffset rr.arrowChunkOffset rr.batch nes2 h2 h3 (by omega) hloop
      constructor
      · simp only [List.length_cons, hlen2]
        rcases le_or_lt (c1 + 1) numRows with hle | hlt
        · have hdiv := Nat.div_eq_sub_div (by omega : 0 < c1 + 1)
            (by omega : c1 + 1 ≤ numRows + c1)
          have he : numRows + c1 - (c1 + 1) = numRows - (c1 + 1) + c1 := by omega
          rw [hdiv, he]
        · have h0 : numRows - (c1 + 1) = 0 := by omega
          have ha : (0 + c1) / (c1 + 1) = 0 := Nat.div_eq_of_lt (by omega)
          have hb : (numRows + c1) / (c1 + 1) = 1 := by
            rw [Nat.div_eq_sub_div (by omega : 0 < c1 + 1)
              (by omega : c1 + 1 ≤ numRows + c1)]
            rw [Nat.div_eq_of_lt (by omega : numRows + c1 - (c1 + 1) < c1 + 1)]
          rw [h0, ha, hb]
      · simp only [List.sum_cons, hsum2]
        omega
    · rw [if_neg hpos] at hok
      cases hok
      have h0 : numRows = 0 := by omega
      subst h0
      refine ⟨?_, rfl⟩
      simp [Nat.div_eq_of_lt (by omega : c1 < c1 + 1)]

/-- C3: after the chunked-array `WriteBatch` returns, the destination
offset stored into `numElements` equals
`min(remaining destination capacity, remaining source length)` (remaining
source length being the total chunked length minus the rows the
(chunk index, offset within chunk) cursor has already consumed), and the
cursor pair advances by exactly that amount, staying within bounds so
that it resumes correctly across calls; consequently the
`while (num_rows > 0)` writer loop over a column of total length `L` with
batch capacity `C = c1 + 1` flushes `ceil(L / C) = (L + c1) / C` batches
whose recorded row counts sum to `L`. -/
theorem c3_chunked_cursor_and_batches :
    (∀ (chunks : List AArr) (length idx chunkOff : Nat) (b : OBatch)
       (r : ChunkedResult),
      chunkOff ≤ chunks.length →
      idx ≤ alen (chunks.getD chunkOff (.int64A [])) →
      WriteBatchChunked chunks length idx chunkOff b = .ok r →
      r.numElements =
        min length (chunksLen chunks - cursorConsumed chunks idx chunkOff) ∧
      cursorConsumed chunks r.arrowIndexOffset r.arrowChunkOffset =
        cursorConsumed chunks idx chunkOff + r.numElements ∧
      r.arrowChunkOffset ≤ chunks.length ∧
      r.arrowIndexOffset ≤ alen (chunks.getD r.arrowChunkOffset (.int64A []))) ∧
    (∀ (chunks : List AArr) (c1 : Nat) (b : OBatch) (nes : List Nat),
      ORCFileWriterWrite chunks c1 b = .ok nes →
      nes.length = (chunksLen chunks + c1) / (c1 + 1) ∧
      nes.sum = chunksLen chunks) := by
  constructor
  · intro chunks length idx chunkOff b r hco hidx hok
    simp only [WriteBatchChunked] at hok
    obtain ⟨h1, h2, h3, h4⟩ := writeChunkedLoop_spec chunks.length chunks length
      idx chunkOff 0 b r (by omega) hco hidx hok
    rw [Nat.sub_zero] at h1 h4
    rw [Nat.zero_add] at h1
    exact ⟨h1, by omega, h2, h3⟩
  · intro chunks c1 b nes hok
    have hcc : cursorConsumed chunks 0 0 = 0 := by
      simp [cursorConsumed]
    exact writeTableLoop_spec (chunksLen chunks) chunks c1 0 0 b nes
      (Nat.zero_le _) (Nat.zero_le _) (by omega) hok

/-- C3 witness: a column of two chunks of lengths 3 and 2 (total `L = 5`)
written with batch capacity 4 flushes batches of `[4, 1]` rows:
`ceil(5 / 4) = 2` batches summing to 5, the cursor resuming inside the
second chunk after the first call. -/
theorem c3_chunked_cursor_and_batches_witness :
    ([4, 1] : List Nat).length =
      (chunksLen [.int64A [some 1, some 2, some 3], .int64A [some 4, some 5]] + 3)
        / (3 + 1) ∧
    ([4, 1] : List Nat).sum =
      chunksLen [.int64A [some 1, some 2, some 3], .int64A [some 4, some 5]] := by
  refine c3_chunked_cursor_and_batches.2
    [.int64A [some 1, some 2, some 3], .int64A [some 4, some 5]] 3
    (.longB false (fun _ => true) (fun _ => 0)) [4, 1] ?_
  simp +decide [ORCFileWriterWrite, writeTableLoop, WriteBatchChunked,
    writeChunkedLoop, chunksLen, NormalizeArray, alen, WriteBatchArr,
    writeOptVals, svals, updB, bind, Except.bind, pure, Except.pure]

theorem maskVals_isSome {γ : Type} (p : List Bool) :
    ∀ vals : List (Option γ),
      (maskVals p vals).map Option.isSome = andBits p (vals.map Option.isSome) := by
  induction p with
  | nil => intro vals; rfl
  | cons b bs ih =>
    intro vals
    cases vals with
    | nil => rfl
    | cons v vs =>
      simp only [maskVals, andBits, List.zipWith_cons_cons, List.map_cons]
      refine congrArg₂ _ ?_ (ih vs)
      cases b <;> simp

theorem topValidity_mask (p : List Bool) (f : AArr) :
    topValidity (maskValidity p f) = andBits p (topValidity f) := by
  cases f <;> simp [maskValidity, topValidity, maskVals_isSome]

theorem alen_topValidity (a : AArr) : (topValidity a).length = alen a := by
  cases a <;> simp [topValidity, alen]

theorem alen_mask (p : List Bool) (f : AArr) :
    alen (maskValidity p f) = min p.length (alen f) := by
  rw [← alen_topValidity, topValidity_mask]
  simp only [andBits]
  rw [List.length_zipWith, alen_topValidity]

theorem isNull_mask (p : List Bool) (f : AArr) (i : Nat) (h1 : i < p.length)
    (h2 : i < alen f) (h3 : p.getD i true = false) :
    isNullAt (maskValidity p f) i = true := by
  have h2' : i < (topValidity f).length := by rw [alen_topValidity]; exact h2
  have hzl : i < (andBits p (topValidity f)).length := by
    simp only [andBits]
    rw [List.length_zipWith]
    omega
  simp only [isNullAt, topValidity_mask, Bool.not_eq_true']
  rw [List.getD_eq_getElem _ _ hzl]
  simp only [andBits]
  rw [List.getElem_zipWith]
  rw [List.getD_eq_getElem _ _ h1] at h3
  simp [h3]

theorem maskVals_all {γ : Type} (p : List Bool) (pred : γ → Bool) :
    ∀ vals : List (Option γ),
      vals.all (fun ov => ov.all pred) = true →
      (maskVals p vals).all (fun ov => ov.all pred) = true := by
  induction p with
  | nil => intro vals h; rfl
  | cons b bs ih =>
    intro vals h
    cases vals with
    | nil => rfl
    | cons v vs =>
      simp only [List.all_cons, Bool.and_eq_true] at h
      simp only [maskVals, List.zipWith_cons_cons, List.all_cons, Bool.and_eq_true]
      refine ⟨?_, ih vs h.2⟩
      cases b
      · simp
      · simpa using h.1

theorem nodes_mask (p : List Bool) (x : AArr) : nodes (maskValidity p x) = nodes x := by
  cases x <;> rfl

theorem wf_mask (p : List Bool) (f : AArr) (hal : alen f = p.length)
    (hwf : wfB f = true) : wfB (maskValidity p f) = true := by
  cases f with
  | boolA vals => rfl
  | int8A vals => exact maskVals_all p _ vals hwf
  | int16A vals => exact maskVals_all p _ vals hwf
  | int32A vals => exact maskVals_all p _ vals hwf
  | int64A vals => exact maskVals_all p _ vals hwf
  | date32A vals => exact maskVals_all p _ vals hwf
  | timestampA u vals => exact maskVals_all p _ vals hwf
  | decimalA pr sc vals =>
    simp only [wfB, maskValidity, Bool.and_eq_true] at hwf ⊢
    exact ⟨hwf.1, maskVals_all p _ vals hwf.2⟩
  | stringA vals => rfl
  | binaryA vals => rfl
  | fixedBinaryA w vals => exact maskVals_all p _ vals hwf
  | structA v fs =>
    simp only [alen] at hal
    simp only [wfB, maskValidity] at hwf ⊢
    have hl : (andBits p v).length = v.length := by
      simp only [andBits]
      rw [List.length_zipWith]
      omega
    rw [hl]
    exact hwf
  | listA v offs values =>
    simp only [alen] at hal
    simp only [wfB, maskValidity] at hwf ⊢
    have hl : (andBits p v).length = v.length := by
      simp only [andBits]
      rw [List.length_zipWith]
      omega
    rw [hl]
    exact hwf
  | mapA v offs keys items =>
    simp only [alen] at hal
    simp only [wfB, maskValidity] at hwf ⊢
    have hl : (andBits p v).length = v.length := by
      simp only [andBits]
      rw [List.length_zipWith]
      omega
    rw [hl]
    exact hwf

theorem topValidity_normalize (a : AArr) :
    topValidity (NormalizeArray a) = topValidity a := by
  cases a <;>
    first
      | (simp only [NormalizeArray]; split <;> rfl)
      | simp [NormalizeArray, topValidity]

theorem isNull_normalize (a : AArr) (i : Nat) :
    isNullAt (NormalizeArray a) i = isNullAt a i := by
  simp [isNullAt, topValidity_normalize]

theorem wfFields_get (n : Nat) :
    ∀ (j : Nat) (fs : AArrList) (f : AArr), wfFieldsB n fs = true →
      fieldAt.fieldsGet fs j = some f → alen f = n ∧ wfB f = true := by
  intro j
  induction j with
  | zero =>
    intro fs f hwf hg
    cases fs with
    | nil => simp [fieldAt.fieldsGet] at hg
    | cons hd tl =>
      simp only [fieldAt.fieldsGet, Option.some.injEq] at hg
      subst hg
      simp only [wfFieldsB, Bool.and_eq_true, beq_iff_eq] at hwf
      exact ⟨hwf.1.1, hwf.1.2⟩
  | succ j ih =>
    intro fs f hwf hg
    cases fs with
    | nil => simp [fieldAt.fieldsGet] at hg
    | cons hd tl =>
      simp only [fieldAt.fieldsGet] at hg
      simp only [wfFieldsB, Bool.and_eq_true] at hwf
      exact ih tl f hwf.2 hg

theorem normalizeFields_get (v : List Bool) :
    ∀ (j : Nat) (fs : AArrList),
      fieldAt.fieldsGet (normalizeFields v fs) j =
        (fieldAt.fieldsGet fs j).map (fun f => NormalizeArray (maskValidity v f)) := by
  intro j
  induction j with
  | zero =>
    intro fs
    cases fs with
    | nil => rw [normalizeFields]; simp [fieldAt.fieldsGet]
    | cons hd tl => rw [normalizeFields]; simp [fieldAt.fieldsGet]
  | succ j ih =>
    intro fs
    cases fs with
    | nil => rw [normalizeFields]; simp [fieldAt.fieldsGet]
    | cons hd tl =>
      rw [normalizeFields]
      simp only [fieldAt.fieldsGet]
      exact ih tl

theorem wf_normalize_aux (N : Nat) :
    ∀ a : AArr, nodes a ≤ N → wfB a = true → wfB (NormalizeArray a) = true := by
  induction N with
  | zero =>
    intro a hn
    have := nodes_pos a
    omega
  | succ N ih =>
    have hfields : ∀ (M : Nat) (v : List Bool) (fs : AArrList), nodesL fs ≤ M →
        nodesL fs ≤ N → wfFieldsB v.length fs = true →
        wfFieldsB v.length (normalizeFields v fs) = true := by
      intro M
      induction M with
      | zero =>
        intro v fs h0 hN hwf
        cases fs with
        | nil => rw [normalizeFields]; exact hwf
        | cons f tl =>
          exfalso
          have := nodes_pos f
          simp only [nodesL] at h0
          omega
      | succ M ihM =>
        intro v fs hM hN hwf
        cases fs with
        | nil => rw [normalizeFields]; exact hwf
        | cons f tl =>
          rw [normalizeFields]
          simp only [wfFieldsB, Bool.and_eq_true, beq_iff_eq] at hwf ⊢
          obtain ⟨⟨hal, hwff⟩, hwft⟩ := hwf
          simp only [nodesL] at hM hN
          have hposf := nodes_pos f
          refine ⟨⟨?_, ?_⟩, ?_⟩
          · rw [alen_normalize, alen_mask, hal]
            exact Nat.min_self _
          · refine ih (maskValidity v f) ?_ (wf_mask v f hal hwff)
            rw [nodes_mask]
            omega
          · exact ihM v tl (by omega) (by omega) hwft
    intro a hn hwf
    cases a with
    | structA v fs =>
      simp only [NormalizeArray]
      split
      · exact hwf
      · simp only [wfB] at hwf ⊢
        simp only [nodes] at hn
        exact hfields (nodesL fs) v fs le_rfl (by omega) hwf
    | listA v offs values =>
      simp only [NormalizeArray, wfB, Bool.and_eq_true] at hwf ⊢
      simp only [nodes] at hn
      exact ⟨hwf.1, ih values (by omega) hwf.2⟩
    | mapA v offs keys items =>
      simp only [NormalizeArray, wfB, Bool.and_eq_true] at hwf ⊢
      simp only [nodes] at hn
      have hpk := nodes_pos keys
      have hpi := nodes_pos items
      exact ⟨⟨hwf.1.1, ih keys (by omega) hwf.1.2⟩, ih items (by omega) hwf.2⟩
    | boolA vals => simpa only [NormalizeArray] using hwf
    | int8A vals => simpa only [NormalizeArray] using hwf
    | int16A vals => simpa only [NormalizeArray] using hwf
    | int32A vals => simpa only [NormalizeArray] using hwf
    | int64A vals => simpa only [NormalizeArray] using hwf
    | date32A vals => simpa only [NormalizeArray] using hwf
    | timestampA u vals => simpa only [NormalizeArray] using hwf
    | decimalA p sc vals => simpa only [NormalizeArray] using hwf
    | stringA vals => simpa only [NormalizeArray] using hwf
    | binaryA vals => simpa only [NormalizeArray] using hwf
    | fixedBinaryA w vals => simpa only [NormalizeArray] using hwf

theorem wf_normalize (a : AArr) (hwf : wfB a = true) :
    wfB (NormalizeArray a) = true :=
  wf_normalize_aux (nodes a) a le_rfl hwf

theorem normalize_desc_null :
    ∀ (path : List Nat) (a : AArr) (i : Nat),
      wfB a = true → i < alen a → isNullAt a i = true →
      ∀ d, structDescAt (NormalizeArray a) path = some d → isNullAt d i = true := by
  intro path
  induction path with
  | nil =>
    intro a i hwf hi hnull d hd
    simp only [structDescAt, Option.some.injEq] at hd
    subst hd
    rw [isNull_normalize]
    exact hnull
  | cons j rest ihp =>
    intro a i hwf hi hnull d hd
    cases a with
    | structA v fs =>
      have hiv : i < v.length := by simpa [alen] using hi
      have hvfalse : v.getD i true = false := by
        simpa [isNullAt, topValidity] using hnull
      have hall : ¬ (v.all (fun b => b) = true) := by
        intro hall
        have hmem : v[i] ∈ v := List.getElem_mem hiv
        have := List.all_eq_true.mp hall v[i] hmem
        rw [List.getD_eq_getElem _ _ hiv] at hvfalse
        rw [hvfalse] at this
        cases this
      simp only [NormalizeArray] at hd
      rw [if_neg hall] at hd
      simp only [structDescAt, fieldAt] at hd
      rw [normalizeFields_get] at hd
      cases hfg : fieldAt.fieldsGet fs j with
      | none => rw [hfg] at hd; simp at hd
      | some f =>
        rw [hfg] at hd
        simp only [Option.map] at hd
        have hwf' : wfFieldsB v.length fs = true := by simpa [wfB] using hwf
        obtain ⟨half, hwff⟩ := wfFields_get v.length j fs f hwf' hfg
        refine ihp (maskValidity v f) i (wf_mask v f (by omega) hwff) ?_ ?_ d hd
        · rw [alen_mask]
          omega
        · exact isNull_mask v f i hiv (by omega) hvfalse
    | boolA vals => simp [NormalizeArray, structDescAt, fieldAt] at hd
    | int8A vals => simp [NormalizeArray, structDescAt, fieldAt] at hd
    | int16A vals => simp [NormalizeArray, structDescAt, fieldAt] at hd
    | int32A vals => simp [NormalizeArray, structDescAt, fieldAt] at hd
    | int64A vals => simp [NormalizeArray, structDescAt, fieldAt] at hd
    | date32A vals => simp [NormalizeArray, structDescAt, fieldAt] at hd
    | timestampA u vals => simp [NormalizeArray, structDescAt, fieldAt] at hd
    | decimalA p sc vals => simp [NormalizeArray, structDescAt, fieldAt] at hd
    | stringA vals => simp [NormalizeArray, structDescAt, fieldAt] at hd
    | binaryA vals => simp [NormalizeArray, structDescAt, fieldAt] at hd
    | fixedBinaryA w vals => simp [NormalizeArray, structDescAt, fieldAt] at hd
    | listA v offs values => simp [NormalizeArray, structDescAt, fieldAt] at hd
    | mapA v offs keys items => simp [NormalizeArray, structDescAt, fieldAt] at hd

theorem writeStructFields_get :
    ∀ (j : Nat) (fs : AArrList) (fbs : OBatchList) (aOff len o : Nat)
      (fbs' : OBatchList) (fb0 : OBatch),
      writeStructFields fs fbs aOff len o = .ok fbs' →
      obFieldAt.obFieldsGet fbs' j = some fb0 →
      ∃ (f : AArr) (fb : OBatch), fieldAt.fieldsGet fs j = some f ∧
        WriteBatchArr f aOff len o fb = .ok fb0 := by
  intro j
  induction j with
  | zero =>
    intro fs fbs aOff len o fbs' fb0 hok hg
    cases fs with
    | nil =>
      cases fbs with
      | nil =>
        rw [writeStructFields] at hok
        cases hok
        simp [obFieldAt.obFieldsGet] at hg
      | cons fb fbtl =>
        rw [writeStructFields] at hok
        · cases hok
        all_goals (intros; simp_all)
    | cons f ftl =>
      cases fbs with
      | nil =>
        rw [writeStructFields] at hok
        · cases hok
        all_goals (intros; simp_all)
      | cons fb fbtl =>
        rw [writeStructFields] at hok
        obtain ⟨fb1, hw1, h2⟩ := bind_ok _ _ _ hok
        obtain ⟨rest1, hw2, h3⟩ := bind_ok _ _ _ h2
        cases h3
        simp only [obFieldAt.obFieldsGet, Option.some.injEq] at hg
        subst hg
        exact ⟨f, fb, rfl, hw1⟩
  | succ j ih =>
    intro fs fbs aOff len o fbs' fb0 hok hg
    cases fs with
    | nil =>
      cases fbs with
      | nil =>
        rw [writeStructFields] at hok
        cases hok
        simp [obFieldAt.obFieldsGet] at hg
      | cons fb fbtl =>
        rw [writeStructFields] at hok
        · cases hok
        all_goals (intros; simp_all)
    | cons f ftl =>
      cases fbs with
      | nil =>
        rw [writeStructFields] at hok
        · cases hok
        all_goals (intros; simp_all)
      | cons fb fbtl =>
        rw [writeStructFields] at hok
        obtain ⟨fb1, hw1, h2⟩ := bind_ok _ _ _ hok
        obtain ⟨rest1, hw2, h3⟩ := bind_ok _ _ _ h2
        cases h3
        simp only [obFieldAt.obFieldsGet] at hg
        exact ih ftl fbtl aOff len o rest1 fb0 hw2 hg

theorem write_desc :
    ∀ (path : List Nat) (a : AArr) (o : Nat) (b b' : OBatch) (i : Nat),
      wfB a = true → i < alen a →
      WriteBatchArr a 0 (alen a) o b = .ok b' →
      (∀ (p2 : List Nat) (d : AArr), structDescAt a p2 = some d →
        isNullAt d i = true) →
      ∀ fb, obDescAt b' path = some fb → obNotNullAt fb (o + i) = false := by
  intro path
  induction path with
  | nil =>
    intro a o b b' i hwf hi hok hdesc fb hfb
    simp only [obDescAt, Option.some.injEq] at hfb
    subst hfb
    have hnull : isNullAt a i = true := hdesc [] a rfl
    cases a <;> cases b <;> simp only [WriteBatchArr, alen, svals_full] at hok hi <;>
      try cases hok
    all_goals try (
      simp only [obNotNullAt]
      rw [writeOptVals_notNull_get _ _ _ _ _ i (by omega)]
      simp only [isNullAt, topValidity, Bool.not_eq_true'] at hnull
      rw [List.getD_eq_getElem _ _ (by simpa using hi), List.getElem_map] at hnull
      rw [List.getD_eq_getElem _ _ hi]
      exact hnull)
    all_goals try (
      simp only [obNotNullAt]
      rw [(writeTsVals_get _ _ _ _ _ _ _ i (by omega)).1]
      simp only [isNullAt, topValidity, Bool.not_eq_true'] at hnull
      rw [List.getD_eq_getElem _ _ (by simpa using hi), List.getElem_map] at hnull
      rw [List.getD_eq_getElem _ _ hi]
      exact hnull)
    case decimalA.decimal128B p sc vals h nn d =>
      by_cases hwide : writeDecimalUsesWide p = true
      · rw [if_pos hwide] at hok
        cases hok
        simp only [obNotNullAt]
        rw [writeOptVals_notNull_get _ _ _ _ _ i (by omega)]
        simp only [isNullAt, topValidity, Bool.not_eq_true'] at hnull
        rw [List.getD_eq_getElem _ _ (by simpa using hi), List.getElem_map] at hnull
        rw [List.getD_eq_getElem _ _ hi]
        exact hnull
      · rw [if_neg hwide] at hok
        cases hok
    case decimalA.decimal64B p sc vals h nn d =>
      by_cases hwide : writeDecimalUsesWide p = true
      · rw [if_pos hwide] at hok
        cases hok
      · rw [if_neg hwide] at hok
        cases hok
        simp only [obNotNullAt]
        rw [writeOptVals_notNull_get _ _ _ _ _ i (by omega)]
        simp only [isNullAt, topValidity, Bool.not_eq_true'] at hnull
        rw [List.getD_eq_getElem _ _ (by simpa using hi), List.getElem_map] at hnull
        rw [List.getD_eq_getElem _ _ hi]
        exact hnull
    case structA.structB v fs h nn fieldsB =>
      obtain ⟨fbs2, hwf2, hout⟩ := bind_ok _ _ _ hok
      cases hout
      simp only [obNotNullAt]
      rw [writeValidity_get v o nn i (by omega)]
      simpa [isNullAt, topValidity] using hnull
    case listA.listB v offs values h nn offB elemB =>
      obtain ⟨r, hsl, hout⟩ := bind_ok _ _ _ hok
      cases hout
      simp only [obNotNullAt]
      obtain ⟨hnf, hff, hbit, hent⟩ := writeListSlots_facts values offs v 0 o nn
        (if o = 0 then updB offB 0 0 else offB) elemB r hsl
      rw [hbit i (by omega)]
      have h2 : v.getD i true = false := by
        simpa [isNullAt, topValidity] using hnull
      rw [List.getD_eq_getElem _ _ hi]
      rw [List.getD_eq_getElem _ _ hi] at h2
      exact h2
    case mapA.mapB v offs keys items h nn offB keyB elemB =>
      obtain ⟨r, hsl, hout⟩ := bind_ok _ _ _ hok
      cases hout
      simp only [obNotNullAt]
      obtain ⟨hnf, hff, hbit, hent⟩ := writeMapSlots_facts keys items offs v 0 o nn
        (if o = 0 then updB offB 0 0 else offB) keyB elemB r hsl
      rw [hbit i (by omega)]
      have h2 : v.getD i true = false := by
        simpa [isNullAt, topValidity] using hnull
      rw [List.getD_eq_getElem _ _ hi]
      rw [List.getD_eq_getElem _ _ hi] at h2
      exact h2
  | cons j rest ihp =>
    intro a o b b' i hwf hi hok hdesc fb hfb
    cases a <;> cases b <;> simp only [WriteBatchArr, alen, svals_full] at hok hi <;>
      try cases hok
    all_goals try (simp [obDescAt, obFieldAt] at hfb)
    case decimalA.decimal128B p sc vals h nn d =>
      by_cases hwide : writeDecimalUsesWide p = true
      · rw [if_pos hwide] at hok
        cases hok
        simp [obDescAt, obFieldAt] at hfb
      · rw [if_neg hwide] at hok
        cases hok
    case decimalA.decimal64B p sc vals h nn d =>
      by_cases hwide : writeDecimalUsesWide p = true
      · rw [if_pos hwide] at hok
        cases hok
      · rw [if_neg hwide] at hok
        cases hok
        simp [obDescAt, obFieldAt] at hfb
    case listA.listB v offs values h nn offB elemB =>
      obtain ⟨r, hsl, hout⟩ := bind_ok _ _ _ hok
      cases hout
      simp [obDescAt, obFieldAt] at hfb
    case mapA.mapB v offs keys items h nn offB keyB elemB =>
      obtain ⟨r, hsl, hout⟩ := bind_ok _ _ _ hok
      cases hout
      simp [obDescAt, obFieldAt] at hfb
    case structA.structB v fs h nn fieldsB =>
      obtain ⟨fbs2, hwf2, hout⟩ := bind_ok _ _ _ hok
      cases hout
      simp only [obDescAt, obFieldAt] at hfb
      cases hfg : obFieldAt.obFieldsGet fbs2 j with
      | none =>
        rw [hfg] at hfb
        simp at hfb
      | some fb1 =>
        rw [hfg] at hfb
        obtain ⟨f, fbold, hf, hwrf⟩ :=
          writeStructFields_get j fs fieldsB 0 v.length o fbs2 fb1 hwf2 hfg
        have hwf' : wfFieldsB v.length fs = true := by simpa [wfB] using hwf
        obtain ⟨half, hwff⟩ := wfFields_get v.length j fs f hwf' hf
        have hwrf2 : WriteBatchArr f 0 (alen f) o fbold = .ok fb1 := by
          rw [half]
          exact hwrf
        refine ihp f o fbold fb1 i hwff (by omega) hwrf2 ?_ fb hfb
        intro p2 d hd
        refine hdesc (j :: p2) d ?_
        simp only [structDescAt, fieldAt]
        rw [hf]
        exact hd

/-- C2: when a struct array's top-level slot `i` is null, the
`NormalizeArray` pre-pass conjoins every child's validity bitmap with the
parent's (so every struct descendant of the normalized array is null at
`i`, even if a child reported the slot as non-null), and the subsequent
struct write marks every descendant field batch's `notNull` false at the
corresponding destination offset `o + i`. -/
theorem c2_struct_null_propagation :
    ∀ (v : List Bool) (fs : AArrList) (i o : Nat) (b : OBatch),
      wfB (.structA v fs) = true → i < v.length → v.getD i true = false →
      (WriteBatchArr (NormalizeArray (.structA v fs)) 0 v.length o b).isOk = true →
      (∀ j f, fieldAt.fieldsGet fs j = some f →
        ∃ fn, fieldAt (NormalizeArray (.structA v fs)) j = some fn ∧
          topValidity fn = andBits v (topValidity f)) ∧
      (∀ path d, structDescAt (NormalizeArray (.structA v fs)) path = some d →
        isNullAt d i = true) ∧
      (∃ b', WriteBatchArr (NormalizeArray (.structA v fs)) 0 v.length o b =
          .ok b' ∧
        ∀ path fb, obDescAt b' path = some fb →
          obNotNullAt fb (o + i) = false) := by
  intro v fs i o b hwf hi hnull hok
  have hisnull : isNullAt (.structA v fs) i = true := by
    simp only [isNullAt, topValidity, Bool.not_eq_true']
    exact hnull
  have halen : alen (NormalizeArray (.structA v fs)) = v.length := by
    rw [alen_normalize]
    rfl
  have hall : ¬ (v.all (fun x => x) = true) := by
    intro hallv
    have hmem : v[i] ∈ v := List.getElem_mem hi
    have := List.all_eq_true.mp hallv v[i] hmem
    rw [List.getD_eq_getElem _ _ hi] at hnull
    rw [hnull] at this
    cases this
  refine ⟨?_, ?_, ?_⟩
  · intro j f hf
    refine ⟨NormalizeArray (maskValidity v f), ?_, ?_⟩
    · simp only [NormalizeArray]
      rw [if_neg hall]
      simp only [fieldAt]
      rw [normalizeFields_get, hf]
      rfl
    · rw [topValidity_normalize, topValidity_mask]
  · exact fun path d hd =>
      normalize_desc_null path (.structA v fs) i hwf (by simpa [alen] using hi)
        hisnull d hd
  · cases hrun : WriteBatchArr (NormalizeArray (.structA v fs)) 0 v.length o b with
    | error e =>
      rw [hrun] at hok
      simp [Except.isOk, Except.toBool] at hok
    | ok b' =>
      refine ⟨b', rfl, ?_⟩
      intro path fb hfb
      have hwfn : wfB (NormalizeArray (.structA v fs)) = true := wf_normalize _ hwf
      have hok2 : WriteBatchArr (NormalizeArray (.structA v fs)) 0
          (alen (NormalizeArray (.structA v fs))) o b = .ok b' := by
        rw [halen]
        exact hrun
      exact write_desc path (NormalizeArray (.structA v fs)) o b b' i hwfn
        (by omega) hok2
        (fun p2 d hd => normalize_desc_null p2 (.structA v fs) i hwf
          (by simpa [alen] using hi) hisnull d hd)
        fb hfb

/-- C2 witness: a 2-row struct with a single int64 child that reports
row 1 as valid while the parent marks it null: after normalization the
child's validity is the conjunction with the parent's, every struct
descendant of the normalized array is null at row 1, and the written
batch marks every descendant `notNull` false at offset 1. -/
theorem c2_struct_null_propagation_witness :
    (∀ j f,
      fieldAt.fieldsGet (.cons (.int64A [some 1, some 2]) .nil) j = some f →
      ∃ fn, fieldAt (NormalizeArray (.structA [true, false]
          (.cons (.int64A [some 1, some 2]) .nil))) j = some fn ∧
        topValidity fn = andBits [true, false] (topValidity f)) ∧
    (∀ path d, structDescAt (NormalizeArray (.structA [true, false]
        (.cons (.int64A [some 1, some 2]) .nil))) path = some d →
      isNullAt d 1 = true) ∧
    (∃ b', WriteBatchArr (NormalizeArray (.structA [true, false]
          (.cons (.int64A [some 1, some 2]) .nil))) 0 2 0
        (.structB false (fun _ => true)
          (.cons (.longB false (fun _ => true) (fun _ => 0)) .nil)) = .ok b' ∧
      ∀ path fb, obDescAt b' path = some fb → obNotNullAt fb (0 + 1) = false) := by
  refine c2_struct_null_propagation [true, false]
    (.cons (.int64A [some 1, some 2]) .nil) 1 0
    (.structB false (fun _ => true)
      (.cons (.longB false (fun _ => true) (fun _ => 0)) .nil))
    (by simp +decide [wfB, wfFieldsB, alen]) (by decide) (by decide) ?_
  simp +decide [NormalizeArray, normalizeFields, maskValidity, maskVals,
    WriteBatchArr, writeStructFields, writeValidity, writeOptVals, svals, alen,
    updB, bind, Except.bind, Except.isOk, Except.toBool, pure, Except.pure]
